import Mathlib

/-!
# woof: a dead-man's-switch (heartbeat) monitor

A shallow embedding of the Go sources `watch.go`, `woof.go` and `files.go`.

Modelling conventions

* A Go `string` or `[]byte` is a list of bytes (`GoString`), a byte being a
  natural number below 256.  String comparison in Go is bytewise
  lexicographic, which is the order of `List Nat`.
* A `time.Time` is the number of nanoseconds since the zero instant
  (January 1, year 1, 00:00:00 UTC), so `IsZero` is equality with `0`;
  a `time.Duration` is a number of nanoseconds.  A time is an unbounded
  integer and `Add` is integer addition; `Sub` returns a duration and
  saturates at the least and the greatest `int64`, as in Go.
* The arithmetic on durations in the statistics of the kick case is `int64`
  arithmetic and wraps around (`wrap64`).
* Go `int` (the `MissedReports` counter, the process id) is an unbounded
  integer.
* `float64` arithmetic is not interpreted: the operations the event handler
  uses are collected in `Float64Ops` and every definition takes them as a
  parameter.
* The goroutine `eventHandler` is an event loop over three channels.  One
  iteration of its `select` is the function `step`; the value received from
  the timer channel and the reading of `time.Now()` are carried by the
  event.  The timer itself (`Reset`, `Stop`, draining) only decides when
  expiry events arrive and is not part of the state.
* A `*Watch` is a record; the pair of channels that connects it to its
  goroutine is the natural number `chan`.
* `saveStatus` queries the goroutines one after the other; the statuses they
  own are taken as fixed while it runs.  Encoding the map as JSON and writing
  the file are not modelled.
* `sort.Stable`, `fmt.Sprintf` and `net/http` belong to the standard library
  and are modelled by what they are documented to do.  `strings.ToLower` is
  modelled with the UTF-8 decoding and encoding of package `utf8` and with
  `unicode.ToLower`, of whose case table the two entries that lead from outside
  ASCII into ASCII are explicit and the rest is a parameter.
-/

namespace Woof

/-! ## Strings, times -/

/-- Go `string` and `[]byte`: a sequence of bytes. -/
abbrev GoString := List Nat

/-- The bytes of an ASCII string literal. -/
def str (s : String) : GoString := s.toList.map Char.toNat

/-- Go's `time.Time`, in nanoseconds since the zero instant. -/
abbrev Time := Int

/-- Go's `time.Duration`, in nanoseconds. -/
abbrev Duration := Int

/-- The constant `time.Second`. -/
def Second : Duration := 1000000000

/-- The method `Time.IsZero`. -/
def IsZero (t : Time) : Bool := t == 0

/-- The method `Time.Add`. -/
def Add (t : Time) (d : Duration) : Time := t + d

/-- The least `time.Duration`, the least `int64`. -/
def minDuration : Duration := -9223372036854775808

/-- The greatest `time.Duration`, the greatest `int64`. -/
def maxDuration : Duration := 9223372036854775807

/-- The method `Time.Sub`: the difference, or the least or greatest duration
when the difference is out of range. -/
def Sub (t u : Time) : Duration :=
  if t - u < minDuration then minDuration
  else if maxDuration < t - u then maxDuration
  else t - u

/-- The value of an integer expression computed in `int64`: wrapped around into
the range from `minDuration` to `maxDuration`. -/
def wrap64 (x : Int) : Int := (x + 9223372036854775808) % 18446744073709551616 - 9223372036854775808

/-- Seconds between the zero instant and January 1, 1970 UTC. -/
def unixToInternal : Int := 62135596800

/-- The method `Time.Unix`: whole seconds since January 1, 1970 UTC. -/
def Unix (t : Time) : Int := t / 1000000000 - unixToInternal

/-- The verb `%v` of `fmt.Sprintf` at an integer: its decimal digits, with a
leading minus sign when negative. -/
def fmtInt (n : Int) : GoString := str (toString n)

/-! ## files.go: trigger kinds -/

/-- The type `TriggerType`, with its three constants in declaration order. -/
inductive TriggerType where
  | Post
  | Manual
  | Periodic
  deriving DecidableEq, Repr

/-- The integer value of a trigger constant (`iota`). -/
def TriggerType.toInt : TriggerType → Int
  | .Post => 0
  | .Manual => 1
  | .Periodic => 2

/-! ## watch.go: data model -/

/-- The struct `WatchDogConfig`. -/
structure WatchDogConfig where
  Trigger : TriggerType
  Interval_ : Duration
  OnExpiry : GoString
  deriving DecidableEq, Repr

/-- The struct `Watch`: the endpoint, the embedded configuration, the effective interval
and the channels `k`, `s` to its goroutine (identified by `chan`). -/
structure Watch extends WatchDogConfig where
  Endpoint : GoString
  Interval : Duration
  chan : Nat
  deriving DecidableEq, Repr

/-- The struct `WatchDogStatus`. -/
structure WatchDogStatus where
  LastSeen : Time
  IntervalMean : Duration
  IntervalStdDev : Duration
  Due : Time
  MissedReports : Int
  deriving DecidableEq, Repr

/-- The `float64` operations used by `eventHandler`. -/
structure Float64Ops (F : Type) where
  /-- The conversion `float64(d)` of an integer. -/
  ofInt : Int → F
  /-- The conversion `Duration(x)` of a float. -/
  toInt : F → Int
  /-- Addition. -/
  add : F → F → F
  /-- Multiplication. -/
  mul : F → F → F
  /-- The function `math.Sqrt`. -/
  sqrt : F → F
  /-- The constant `meanAlpha`, declared as `0.15`. -/
  meanAlpha : F
  /-- The constant expression `1 - meanAlpha`. -/
  oneMinusAlpha : F

/-- The local state of the goroutine `eventHandler`: the status it owns and the
variable `variance`. -/
structure Handler (F : Type) where
  status : WatchDogStatus
  variance : F

/-- A command handed to `exec.Command` and run: program, arguments and the
environment `cmd.Env`. -/
structure Cmd where
  name : GoString
  args : List GoString
  env : List GoString
  deriving DecidableEq, Repr

/-- The three cases of the `select` in `eventHandler`. -/
inductive Event where
  /-- The timer fired; `t` is the value received from `timer.C`. -/
  | expiry (t : Time)
  /-- A kick was received; `now` is the reading of `time.Now()`. -/
  | kick (now : Time)
  /-- The status was sent on the channel `s`. -/
  | query
  deriving DecidableEq, Repr

/-- What one iteration of the loop does to the outside. -/
inductive Output where
  /-- An expiry, with the command run (if any). -/
  | expired (cmd : Option Cmd)
  /-- A kick was consumed. -/
  | kicked
  /-- The status sent to the caller of `Status`, `LastSeen`, and the like. -/
  | sent (status : WatchDogStatus)
  deriving DecidableEq, Repr

/-! ## watch.go: NewWatch and eventHandler -/

/-- The interval chosen by `NewWatch`: 30 seconds when none is configured. -/
def effectiveInterval (cfg : WatchDogConfig) : Duration :=
  if cfg.Interval_ = 0 then 30 * Second else cfg.Interval_

/-- The argument vector `myExecArgs` built by `NewWatch`. -/
def myExecArgs (execArgs : List GoString) (cfg : WatchDogConfig) : List GoString :=
  if execArgs.length > 0 ∧ cfg.OnExpiry.length > 0 then execArgs ++ [cfg.OnExpiry] else []

/-- The constructor `NewWatch`: the watch record (its goroutine starts in `eventHandlerInit`). -/
def NewWatch (ep : GoString) (cfg : WatchDogConfig) (chan : Nat) : Watch :=
  { toWatchDogConfig := cfg, Endpoint := ep, Interval := effectiveInterval cfg, chan := chan }

/-- The part of `eventHandler` before the loop, run at time `now`. -/
def eventHandlerInit {F : Type} (fp : Float64Ops F) (w : Watch) (status : WatchDogStatus)
    (now : Time) : Handler F :=
  let status :=
    if IsZero status.LastSeen then { status with Due := Add now w.Interval }
    else { status with Due := Add status.LastSeen w.Interval }
  { status := status
    variance := fp.mul (fp.ofInt status.IntervalStdDev) (fp.ofInt status.IntervalStdDev) }

/-- The status update of the timer case. -/
def expire (w : Watch) (t : Time) (status : WatchDogStatus) : WatchDogStatus :=
  let status := { status with Due := Add t w.Interval }
  if w.Trigger = TriggerType.Periodic then { status with LastSeen := t }
  else { status with MissedReports := status.MissedReports + 1 }

/-- The environment given to the expiry command. -/
def commandEnv (w : Watch) (pid : Int) (status : WatchDogStatus) : List GoString :=
  let lsUnix : Int := if !IsZero status.LastSeen then Unix status.LastSeen else 0
  [ str "WOOF_PID=" ++ fmtInt pid,
    str "WOOF_ENDPOINT=" ++ w.Endpoint,
    str "WOOF_LASTSEEN=" ++ fmtInt lsUnix,
    str "WOOF_DUE=" ++ fmtInt (Unix status.Due),
    str "WOOF_MISSEDREPORTS=" ++ fmtInt status.MissedReports ]

/-- The "Run command" block of the timer case: nothing when `myExecArgs` is
empty. -/
def runCommand (w : Watch) (execArgs : List GoString) (pid : Int) (status : WatchDogStatus) :
    Option Cmd :=
  match execArgs with
  | [] => none
  | name :: args => some { name := name, args := args, env := commandEnv w pid status }

/-- The kick case. -/
def kick {F : Type} (fp : Float64Ops F) (w : Watch) (now : Time) (h : Handler F) : Handler F :=
  let h :=
    if !IsZero h.status.LastSeen then
      let measuredInterval := Sub now h.status.LastSeen
      let diff := fp.ofInt (wrap64 (measuredInterval - h.status.IntervalMean))
      let incr := fp.mul fp.meanAlpha diff
      let mean := wrap64 (h.status.IntervalMean + fp.toInt incr)
      let variance := fp.mul fp.oneMinusAlpha (fp.add h.variance (fp.mul diff incr))
      { status := { h.status with IntervalMean := mean, IntervalStdDev := fp.toInt (fp.sqrt variance) }
        variance := variance }
    else h
  let status := { h.status with LastSeen := now, MissedReports := 0 }
  { h with status := { status with Due := Add status.LastSeen w.Interval } }

/-- One iteration of the loop of `eventHandler`. -/
def step {F : Type} (fp : Float64Ops F) (w : Watch) (execArgs : List GoString) (pid : Int)
    (h : Handler F) : Event → Handler F × Output
  | .expiry t =>
    let status := expire w t h.status
    ({ h with status := status }, .expired (runCommand w execArgs pid status))
  | .kick now => (kick fp w now h, .kicked)
  | .query => (h, .sent h.status)

/-- The loop of `eventHandler` over a sequence of events: the final state. -/
def run {F : Type} (fp : Float64Ops F) (w : Watch) (execArgs : List GoString) (pid : Int)
    (h : Handler F) (events : List Event) : Handler F :=
  events.foldl (fun h e => (step fp w execArgs pid h e).1) h

/-- Exact rational arithmetic as an instance of the float operations (no
rounding; conversion to an integer truncates toward zero, the square root is
taken down to the integer below). -/
def exactArith : Float64Ops ℚ where
  ofInt := fun n => (n : ℚ)
  toInt := fun q => if 0 ≤ q then ⌊q⌋ else ⌈q⌉
  add := fun a b => a + b
  mul := fun a b => a * b
  sqrt := fun q => ((Nat.sqrt ⌊q⌋.toNat : ℕ) : ℚ)
  meanAlpha := 3 / 20
  oneMinusAlpha := 17 / 20

/-! ## watch.go: ServeHttp and Less -/

/-- An inbound request: its method and `URL.Path`. -/
structure Request where
  Method : GoString
  Path : GoString
  deriving DecidableEq, Repr

/-- What a handler writes to the `http.ResponseWriter`. -/
inductive Response where
  /-- The call `http.Error(wr, msg, code)`. -/
  | error (msg : GoString) (code : Nat)
  /-- The call `http.Redirect(wr, r, url, code)`. -/
  | redirect (url : GoString) (code : Nat)
  /-- The page rendered by `UI`. -/
  | ui
  deriving DecidableEq, Repr

/-- The constant `http.StatusOK`. -/
def StatusOK : Nat := 200

/-- The constant `http.StatusSeeOther`. -/
def StatusSeeOther : Nat := 303

/-- The constant `http.StatusForbidden`. -/
def StatusForbidden : Nat := 403

/-- The constant `http.StatusNotFound`. -/
def StatusNotFound : Nat := 404

/-- The constant `http.StatusMethodNotAllowed`. -/
def StatusMethodNotAllowed : Nat := 405

/-- The function `http.NotFound`. -/
def NotFound : Response := .error (str "404 page not found") StatusNotFound

/-- The method `Watch.ServeHttp`: the response, and the channels on which a kick
was sent (in order). -/
def Watch.ServeHttp (w : Watch) (r : Request) : Response × List Nat :=
  if r.Method ≠ str "POST" then (.error (str "Method Not Allowed") StatusMethodNotAllowed, [])
  else if w.Trigger = TriggerType.Periodic then (.error (str "Forbidden") StatusForbidden, [])
  else
    if w.Trigger = TriggerType.Manual then (.redirect (str "/") StatusSeeOther, [w.chan])
    else (.error (str "Watchdog kicked") StatusOK, [w.chan])

/-- The method `Watch.Less`. -/
def Watch.Less (w o : Watch) : Bool :=
  if w.Trigger ≠ o.Trigger then decide (w.Trigger.toInt < o.Trigger.toInt)
  else decide (w.Endpoint < o.Endpoint)

/-! ## woof.go: the registry -/

/-- The type `Watches`. -/
abbrev Watches := List Watch

/-- The inner loop of the insertion sort of package `sort`: the element `x` at
the right end of a sorted run moves left while it is less than its left
neighbour.  The run is given last element first. -/
def insertBack {α : Type} (less : α → α → Bool) (x : α) : List α → List α
  | [] => [x]
  | y :: rest => if less x y then y :: insertBack less x rest else x :: y :: rest

/-- The function `sort.Stable` of the standard library: a stable sort by `less`.
It is the insertion sort the library runs on runs of up to 20 elements (longer
inputs are sorted in such runs, which are then merged stably).  For a strict
weak order such as `Watch.Less` the result does not depend on the algorithm:
`sortStable_unique` shows that it is the only ascending arrangement that keeps
equivalent elements in their original order. -/
def sortStable {α : Type} (less : α → α → Bool) (l : List α) : List α :=
  (l.foldl (fun acc x => insertBack less x acc) []).reverse

/-- The method `Watches.AddWatch`. -/
def AddWatch (ws : Watches) (w : Watch) : Watches :=
  sortStable Watch.Less (ws ++ [w])

/-- The registry after a sequence of `AddWatch` calls on the empty registry. -/
def addAll (inserted : List Watch) : Watches :=
  inserted.foldl AddWatch []

/-- The loop of `Watches.ServeHTTP` over the registry. -/
def dispatch (r : Request) (path : GoString) : Watches → Response × List Nat
  | [] => (NotFound, [])
  | w :: ws => if w.Endpoint = path then w.ServeHttp r else dispatch r path ws

/-- The method `Watches.ServeHTTP`. -/
def ServeHTTP (ws : Watches) (r : Request) : Response × List Nat :=
  let path := r.Path
  if path.length > 1 ∧ path.head? = some 47 then dispatch r path.tail ws
  else (.ui, [])

/-! ## files.go: saveStatus and UnmarshalJSON -/

/-- The type `StatusFile`, a map from endpoint to status. -/
abbrev StatusFile := GoString → Option WatchDogStatus

/-- The method `Watch.Status`: the status received from the goroutine of the
watch, `actors` giving the status each goroutine currently owns. -/
def Watch.Status (actors : Nat → WatchDogStatus) (w : Watch) : WatchDogStatus :=
  actors w.chan

/-- The method `Watch.LastSeen`. -/
def Watch.LastSeen (actors : Nat → WatchDogStatus) (w : Watch) : Time :=
  (actors w.chan).LastSeen

/-- The map built by `saveStatus` (which then writes it to the state file). -/
def saveStatus (actors : Nat → WatchDogStatus) (statuses : List Watch) : StatusFile :=
  statuses.foldl
    (fun myStatus s =>
      if s.Endpoint ≠ [] ∧ !IsZero (s.LastSeen actors) then
        fun e => if e = s.Endpoint then some (s.Status actors) else myStatus e
      else myStatus)
    (fun _ => none)

/-- Lower case of an ASCII byte. -/
def asciiLower (c : Nat) : Nat := if 65 ≤ c ∧ c ≤ 90 then c + 32 else c

/-- The constant `utf8.RuneError`. -/
def RuneError : Nat := 0xFFFD

/-- The function `utf8.DecodeRuneInString`: the first rune of a string and its
width in bytes.  A byte that does not start a valid encoding is decoded as
`RuneError` of width 1.  The masks and shifts of the library are written with
`%` and `*`. -/
def decodeRune : GoString → Nat × Nat
  | [] => (RuneError, 0)
  | s0 :: rest =>
    if s0 < 0x80 then (s0, 1)
    else if s0 < 0xC2 ∨ 0xF4 < s0 then (RuneError, 1)
    else
      let sz := if s0 < 0xE0 then 2 else if s0 < 0xF0 then 3 else 4
      let lo := if s0 = 0xE0 then 0xA0 else if s0 = 0xF0 then 0x90 else 0x80
      let hi := if s0 = 0xED then 0x9F else if s0 = 0xF4 then 0x8F else 0xBF
      if rest.length + 1 < sz then (RuneError, 1)
      else
        match rest with
        | [] => (RuneError, 1)
        | s1 :: rest1 =>
          if s1 < lo ∨ hi < s1 then (RuneError, 1)
          else if sz ≤ 2 then (s0 % 32 * 64 + s1 % 64, 2)
          else
            match rest1 with
            | [] => (RuneError, 1)
            | s2 :: rest2 =>
              if s2 < 0x80 ∨ 0xBF < s2 then (RuneError, 1)
              else if sz ≤ 3 then (s0 % 16 * 4096 + s1 % 64 * 64 + s2 % 64, 3)
              else
                match rest2 with
                | [] => (RuneError, 1)
                | s3 :: _ =>
                  if s3 < 0x80 ∨ 0xBF < s3 then (RuneError, 1)
                  else (s0 % 8 * 262144 + s1 % 64 * 4096 + s2 % 64 * 64 + s3 % 64, 4)

/-- The function `utf8.AppendRune`: the encoding of a rune. -/
def encodeRune (r : Nat) : GoString :=
  if r ≤ 0x7F then [r]
  else if r ≤ 0x7FF then [0xC0 + r / 64, 0x80 + r % 64]
  else if 0x10FFFF < r ∨ (0xD800 ≤ r ∧ r ≤ 0xDFFF) then [0xEF, 0xBF, 0xBD]
  else if r ≤ 0xFFFF then [0xE0 + r / 4096, 0x80 + r / 64 % 64, 0x80 + r % 64]
  else [0xF0 + r / 262144, 0x80 + r / 4096 % 64, 0x80 + r / 64 % 64, 0x80 + r % 64]

/-- The loop of `strings.Map`: the runes of the string are decoded one after the
other, mapped and encoded.  Every step consumes at least one byte, so a fuel of
the length of the string is enough. -/
def mapRunes (mapping : Nat → Nat) : Nat → GoString → GoString
  | 0, _ => []
  | _, [] => []
  | fuel + 1, s0 :: rest =>
    encodeRune (mapping (decodeRune (s0 :: rest)).1) ++
      mapRunes mapping fuel ((s0 :: rest).drop (decodeRune (s0 :: rest)).2)

/-- The function `strings.Map`. -/
def Map (mapping : Nat → Nat) (s : GoString) : GoString := mapRunes mapping s.length s

/-- The function `unicode.ToLower`.  On ASCII it maps the letters `A` to `Z`; the
case table has two runes outside ASCII whose lower case is inside, U+0130
(capital I with dot above, to `i`) and U+212A (the Kelvin sign, to `k`); the
rest of the table is the parameter `caseTable`. -/
def unicodeToLower (caseTable : Nat → Nat) (r : Nat) : Nat :=
  if r ≤ 0x7F then asciiLower r
  else if r = 0x130 then 0x69
  else if r = 0x212A then 0x6B
  else caseTable r

/-- The function `strings.ToLower` of the standard library.  On a string of ASCII
bytes it maps the letters `A` to `Z` to lower case; on any other string it maps
every rune by `unicode.ToLower`. -/
def ToLower (caseTable : Nat → Nat) (s : GoString) : GoString :=
  if s.all (fun c => decide (c < 128)) then s.map asciiLower
  else Map (unicodeToLower caseTable) s

/-- The method `TriggerType.UnmarshalJSON`: the trigger stored through the
receiver and the error returned (`none` is `nil`). -/
def UnmarshalJSON (caseTable : Nat → Nat) (data : GoString) :
    TriggerType × Option GoString :=
  let s := ToLower caseTable data
  let t :=
    if s = str "\"post\"" then TriggerType.Post
    else if s = str "\"manual\"" then TriggerType.Manual
    else if s = str "\"periodic\"" then TriggerType.Periodic
    else TriggerType.Manual
  (t, none)

/-! ## Properties stated in the words of the specification -/

/-- The invariant on `Due` as the specification words it: `Due` is `LastSeen`
plus the interval when `LastSeen` is set, and the creation time plus the
interval when it is not. -/
def DueInvariant (w : Watch) (created : Time) (s : WatchDogStatus) : Prop :=
  s.Due = (if s.LastSeen ≠ 0 then s.LastSeen else created) + w.Interval

instance (w : Watch) (created : Time) (s : WatchDogStatus) : Decidable (DueInvariant w created s) := by
  unfold DueInvariant; infer_instance

/-- The time of the latest kick or expiry in a sequence of events, `start` when
there is none. -/
def lastArmed (start : Time) (events : List Event) : Time :=
  events.foldl
    (fun a e =>
      match e with
      | .expiry t => t
      | .kick now => now
      | .query => a)
    start

/-- The environment of the expiry command with the variable names as the
specification gives them. -/
def specEnv (w : Watch) (pid : Int) (status : WatchDogStatus) : List GoString :=
  [ str "PID=" ++ fmtInt pid,
    str "ENDPOINT=" ++ w.Endpoint,
    str "LASTSEEN=" ++ fmtInt (if status.LastSeen = 0 then 0 else Unix status.LastSeen),
    str "DUE=" ++ fmtInt (Unix status.Due),
    str "MISSEDREPORTS=" ++ fmtInt status.MissedReports ]

/-- Upper case of an ASCII byte. -/
def asciiUpper (c : Nat) : Nat := if 97 ≤ c ∧ c ≤ 122 then c - 32 else c

/-- A spelling of `s` in a mix of upper and lower case: the bytes of `s` at the
positions where `mask` is true are put in upper case. -/
def mixCase : List Bool → GoString → GoString
  | b :: bs, c :: cs => (if b then asciiUpper c else c) :: mixCase bs cs
  | _, cs => cs

/-- A spelling of `s` in a mix of upper and lower case in which moreover an `i`
may be written as U+0130 (bytes `C4 B0`) and a `k` as U+212A (bytes
`E2 84 AA`). -/
def foldSpelling : GoString → GoString → Bool
  | [], [] => true
  | [], _ :: _ => false
  | _ :: _, [] => false
  | c :: cs, d :: ds =>
    (decide (d < 128) && decide (asciiLower d = c) && foldSpelling cs ds) ||
    (decide (c = 0x69) && decide (d = 0xC4) &&
      (match ds with
       | e :: ds1 => decide (e = 0xB0) && foldSpelling cs ds1
       | [] => false)) ||
    (decide (c = 0x6B) && decide (d = 0xE2) &&
      (match ds with
       | e :: f :: ds2 => decide (e = 0x84) && decide (f = 0xAA) && foldSpelling cs ds2
       | _ => false))

/-- The bytes of `"perİodic"`, the JSON string `periodic` with U+0130 for its
first `i`. -/
def dottedPeriodic : GoString :=
  [34, 112, 101, 114, 0xC4, 0xB0, 111, 100, 105, 99, 34]

/-- Kicks at exact gaps after a last check-in at `start`: the kick number `i`
(from 1) is processed at `start + i * gap`. -/
def gapKicks (start : Time) (gap : Duration) (n : Nat) : List Event :=
  (List.range n).map (fun i => Event.kick (start + ((i : Int) + 1) * gap))

/-- A sequence of durations approaches a limit: it is eventually within every
positive distance of it. -/
def Approaches (f : Nat → Int) (limit : Int) : Prop :=
  ∀ ε : ℚ, 0 < ε → ∃ N : Nat, ∀ n : Nat, N ≤ n → |((f n : Int) : ℚ) - (limit : ℚ)| < ε

/-- The distance of the mean from 30 seconds after `n` kicks at gaps of 30
seconds, when the increment is the integer part of 0.15 times the distance. -/
def restGap : Nat → Int
  | 0 => 30 * Second
  | n + 1 => restGap n - 3 * restGap n / 20

/-- The watches of a list that `saveStatus` stores under the key `e`: endpoint
`e`, not empty, and a `LastSeen` that is set. -/
def storedUnder (actors : Nat → WatchDogStatus) (e : GoString) (w : Watch) : Bool :=
  decide (w.Endpoint = e) && decide (w.Endpoint ≠ []) && !IsZero (w.LastSeen actors)

/-- The watches with trigger kind `kind` and endpoint `ep`. -/
def hasKey (kind : TriggerType) (ep : GoString) (w : Watch) : Bool :=
  decide (w.Trigger = kind) && decide (w.Endpoint = ep)

/-! ## Sample values -/

/-- A manual watch on endpoint `backup` with an interval of 10 seconds. -/
def manualWatch : Watch :=
  NewWatch (str "backup") { Trigger := .Manual, Interval_ := 10 * Second, OnExpiry := str "notify" } 0

/-- A periodic watch on endpoint `cron` with an interval of 10 seconds. -/
def periodicWatch : Watch :=
  NewWatch (str "cron") { Trigger := .Periodic, Interval_ := 10 * Second, OnExpiry := [] } 1

/-- A post watch on endpoint `mail` with the default interval. -/
def postWatch : Watch :=
  NewWatch (str "mail") { Trigger := .Post, Interval_ := 0, OnExpiry := str "page" } 2

/-- The status of a watch that never checked in. -/
def freshStatus : WatchDogStatus :=
  { LastSeen := 0, IntervalMean := 0, IntervalStdDev := 0, Due := 0, MissedReports := 0 }

/-- The command prefix of the default configuration. -/
def bashArgs : List GoString := [str "/bin/bash", str "-c"]

/-- The instant 1700000000 seconds after January 1, 1970 UTC. -/
def someDay : Time := (1700000000 + unixToInternal) * Second

/-- The status of a watch that last checked in at `someDay`, with no statistics
yet. -/
def seenStatus : WatchDogStatus :=
  { LastSeen := someDay, IntervalMean := 0, IntervalStdDev := 0, Due := 0, MissedReports := 0 }

/-- The status each goroutine owns in a sample snapshot: the watch on channel 0
checked in, the others never did. -/
def sampleActors (c : Nat) : WatchDogStatus :=
  if c = 0 then
    { LastSeen := someDay, IntervalMean := 12 * Second, IntervalStdDev := 3 * Second,
      Due := someDay + 10 * Second, MissedReports := 0 }
  else freshStatus

/-! ## The event loop -/

section EventLoop

variable {F : Type} (fp : Float64Ops F) (w : Watch) (execArgs : List GoString) (pid : Int)

theorem run_nil (h : Handler F) : run fp w execArgs pid h [] = h := rfl

theorem run_cons (h : Handler F) (e : Event) (es : List Event) :
    run fp w execArgs pid h (e :: es) =
      run fp w execArgs pid (step fp w execArgs pid h e).1 es := rfl

theorem run_append (h : Handler F) (es fs : List Event) :
    run fp w execArgs pid h (es ++ fs) =
      run fp w execArgs pid (run fp w execArgs pid h es) fs := by
  simp [run, List.foldl_append]

theorem run_snoc (h : Handler F) (es : List Event) (e : Event) :
    run fp w execArgs pid h (es ++ [e]) =
      (step fp w execArgs pid (run fp w execArgs pid h es) e).1 := by
  rw [run_append]; rfl

theorem step_expiry_status (h : Handler F) (t : Time) :
    (step fp w execArgs pid h (.expiry t)).1.status = expire w t h.status := rfl

theorem step_expiry_variance (h : Handler F) (t : Time) :
    (step fp w execArgs pid h (.expiry t)).1.variance = h.variance := rfl

theorem step_query (h : Handler F) : (step fp w execArgs pid h .query).1 = h := rfl

theorem step_kick (h : Handler F) (now : Time) :
    (step fp w execArgs pid h (.kick now)).1 = kick fp w now h := rfl

theorem kick_status (h : Handler F) (now : Time) :
    (kick fp w now h).status.LastSeen = now ∧ (kick fp w now h).status.MissedReports = 0 ∧
      (kick fp w now h).status.Due = now + w.Interval := by
  simp [kick, Add]

theorem kick_unset (h : Handler F) (now : Time) (h0 : h.status.LastSeen = 0) :
    (kick fp w now h).status.IntervalMean = h.status.IntervalMean ∧
      (kick fp w now h).status.IntervalStdDev = h.status.IntervalStdDev ∧
      (kick fp w now h).variance = h.variance := by
  simp [kick, IsZero, h0]

/-- A kick that finds a prior `LastSeen` applies the recurrence of the
statistics, in the float operations. -/
theorem kick_recurrence (h : Handler F) (now : Time) (h0 : h.status.LastSeen ≠ 0) :
    (kick fp w now h).status.IntervalMean =
        wrap64 (h.status.IntervalMean +
          fp.toInt (fp.mul fp.meanAlpha
            (fp.ofInt (wrap64 (Sub now h.status.LastSeen - h.status.IntervalMean))))) ∧
      (kick fp w now h).variance =
        fp.mul fp.oneMinusAlpha
          (fp.add h.variance
            (fp.mul (fp.ofInt (wrap64 (Sub now h.status.LastSeen - h.status.IntervalMean)))
              (fp.mul fp.meanAlpha
                (fp.ofInt (wrap64 (Sub now h.status.LastSeen - h.status.IntervalMean)))))) ∧
      (kick fp w now h).status.IntervalStdDev =
        fp.toInt (fp.sqrt (kick fp w now h).variance) := by
  simp [kick, IsZero, h0]

theorem expire_not_periodic (hw : w.Trigger ≠ TriggerType.Periodic) (t : Time)
    (s : WatchDogStatus) :
    expire w t s = { s with Due := t + w.Interval, MissedReports := s.MissedReports + 1 } := by
  simp [expire, hw, Add]

theorem expire_periodic (hw : w.Trigger = TriggerType.Periodic) (t : Time)
    (s : WatchDogStatus) :
    expire w t s = { s with Due := t + w.Interval, LastSeen := t } := by
  simp [expire, hw, Add]

theorem expire_stats (t : Time) (s : WatchDogStatus) :
    (expire w t s).IntervalMean = s.IntervalMean ∧
      (expire w t s).IntervalStdDev = s.IntervalStdDev ∧
      (expire w t s).Due = t + w.Interval := by
  unfold expire; split <;> simp [Add]

/-- After a run of expiries of a watch that is not periodic the counter has grown
by their number, and the rest of the status apart from `Due` is as before. -/
theorem run_expiries_not_periodic (hw : w.Trigger ≠ TriggerType.Periodic) (ts : List Time)
    (h : Handler F) :
    (run fp w execArgs pid h (ts.map Event.expiry)).status.MissedReports =
        h.status.MissedReports + ts.length ∧
      (run fp w execArgs pid h (ts.map Event.expiry)).status.LastSeen = h.status.LastSeen ∧
      (run fp w execArgs pid h (ts.map Event.expiry)).status.IntervalMean =
        h.status.IntervalMean ∧
      (run fp w execArgs pid h (ts.map Event.expiry)).status.IntervalStdDev =
        h.status.IntervalStdDev ∧
      (run fp w execArgs pid h (ts.map Event.expiry)).variance = h.variance := by
  induction ts generalizing h with
  | nil => simp [run_nil]
  | cons t ts ih =>
    rw [List.map_cons, run_cons]
    obtain ⟨h1, h2, h3, h4, h5⟩ := ih (step fp w execArgs pid h (.expiry t)).1
    rw [h1, h2, h3, h4, h5, step_expiry_status, step_expiry_variance,
      expire_not_periodic w hw]
    simp only [List.length_cons, Nat.cast_add, Nat.cast_one]
    refine ⟨by ring, ?_, ?_, ?_, ?_⟩ <;> trivial

/-- The counter of a periodic watch stays at zero. -/
theorem run_periodic_missed (hw : w.Trigger = TriggerType.Periodic) (events : List Event)
    (h : Handler F) (h0 : h.status.MissedReports = 0) :
    (run fp w execArgs pid h events).status.MissedReports = 0 := by
  induction events generalizing h with
  | nil => simpa [run_nil] using h0
  | cons e es ih =>
    rw [run_cons]
    apply ih
    cases e with
    | expiry t => rw [step_expiry_status, expire_periodic w hw]; exact h0
    | kick now => rw [step_kick]; exact (kick_status fp w h now).2.1
    | query => rw [step_query]; exact h0

/-- In every state `Due` is the interval after the latest kick or expiry. -/
theorem run_due (events : List Event) (h : Handler F) (a : Time)
    (h0 : h.status.Due = a + w.Interval) :
    (run fp w execArgs pid h events).status.Due = lastArmed a events + w.Interval := by
  induction events generalizing h a with
  | nil => simpa [run_nil, lastArmed] using h0
  | cons e es ih =>
    rw [run_cons]
    cases e with
    | expiry t =>
      have := ih (step fp w execArgs pid h (.expiry t)).1 t
        (by rw [step_expiry_status]; exact (expire_stats w t h.status).2.2)
      simpa [lastArmed] using this
    | kick now =>
      have := ih (step fp w execArgs pid h (.kick now)).1 now
        (by rw [step_kick]; exact (kick_status fp w h now).2.2)
      simpa [lastArmed] using this
    | query =>
      have := ih (step fp w execArgs pid h .query).1 a (by rw [step_query]; exact h0)
      simpa [lastArmed] using this

theorem init_due (st : WatchDogStatus) (now : Time) :
    (eventHandlerInit fp w st now).status.Due =
      (if st.LastSeen ≠ 0 then st.LastSeen else now) + w.Interval := by
  unfold eventHandlerInit
  by_cases h : st.LastSeen = 0 <;> simp [IsZero, h, Add]

theorem init_status (st : WatchDogStatus) (now : Time) :
    (eventHandlerInit fp w st now).status.LastSeen = st.LastSeen ∧
      (eventHandlerInit fp w st now).status.MissedReports = st.MissedReports := by
  unfold eventHandlerInit
  by_cases h : st.LastSeen = 0 <;> simp [IsZero, h]

/-! ## The statistics under kicks at exact gaps -/

theorem wrap64_of_range (x : Int) (h1 : minDuration ≤ x) (h2 : x ≤ maxDuration) :
    wrap64 x = x := by
  have h1' : (-9223372036854775808 : Int) ≤ x := h1
  have h2' : x ≤ (9223372036854775807 : Int) := h2
  unfold wrap64
  omega

theorem gapKicks_succ (start : Time) (gap : Duration) (n : Nat) :
    gapKicks start gap (n + 1) =
      gapKicks start gap n ++ [Event.kick (start + ((n : Int) + 1) * gap)] := by
  simp [gapKicks, List.range_succ]

theorem run_gapKicks_succ (h : Handler F) (start : Time) (gap : Duration) (n : Nat) :
    run fp w execArgs pid h (gapKicks start gap (n + 1)) =
      kick fp w (start + ((n : Int) + 1) * gap)
        (run fp w execArgs pid h (gapKicks start gap n)) := by
  rw [gapKicks_succ, run_snoc, step_kick]

theorem run_gapKicks_lastSeen (h : Handler F) (gap : Duration) (n : Nat) :
    (run fp w execArgs pid h (gapKicks h.status.LastSeen gap n)).status.LastSeen =
      h.status.LastSeen + (n : Int) * gap := by
  cases n with
  | zero => simp [gapKicks, run_nil]
  | succ n =>
    rw [run_gapKicks_succ, (kick_status fp w _ _).1]
    push_cast
    ring

/-- One kick of the trajectory: the recurrence with the measured interval of 30
seconds, as long as the mean is between 0 and 30 seconds and the increment
between 0 and the distance to 30 seconds. -/
theorem gap_step (h : Handler F) (n : Nat) (hL : 0 < h.status.LastSeen)
    (hfp : ∀ d : Int, 0 ≤ d → d ≤ 30 * Second →
      0 ≤ fp.toInt (fp.mul fp.meanAlpha (fp.ofInt d)) ∧
        fp.toInt (fp.mul fp.meanAlpha (fp.ofInt d)) ≤ d)
    (hm : 0 ≤ (run fp w execArgs pid h
        (gapKicks h.status.LastSeen (30 * Second) n)).status.IntervalMean ∧
      (run fp w execArgs pid h
        (gapKicks h.status.LastSeen (30 * Second) n)).status.IntervalMean ≤ 30 * Second) :
    (run fp w execArgs pid h
        (gapKicks h.status.LastSeen (30 * Second) (n + 1))).status.IntervalMean =
      (run fp w execArgs pid h
          (gapKicks h.status.LastSeen (30 * Second) n)).status.IntervalMean +
        fp.toInt (fp.mul fp.meanAlpha (fp.ofInt (30 * Second -
          (run fp w execArgs pid h
            (gapKicks h.status.LastSeen (30 * Second) n)).status.IntervalMean))) ∧
    (run fp w execArgs pid h (gapKicks h.status.LastSeen (30 * Second) (n + 1))).variance =
      fp.mul fp.oneMinusAlpha
        (fp.add (run fp w execArgs pid h (gapKicks h.status.LastSeen (30 * Second) n)).variance
          (fp.mul
            (fp.ofInt (30 * Second -
              (run fp w execArgs pid h
                (gapKicks h.status.LastSeen (30 * Second) n)).status.IntervalMean))
            (fp.mul fp.meanAlpha (fp.ofInt (30 * Second -
              (run fp w execArgs pid h
                (gapKicks h.status.LastSeen (30 * Second) n)).status.IntervalMean))))) ∧
    (run fp w execArgs pid h
        (gapKicks h.status.LastSeen (30 * Second) (n + 1))).status.IntervalStdDev =
      fp.toInt (fp.sqrt
        (run fp w execArgs pid h
          (gapKicks h.status.LastSeen (30 * Second) (n + 1))).variance) := by
  have hS : (30 : Int) * Second = 30000000000 := by unfold Second; norm_num
  have hls := run_gapKicks_lastSeen fp w execArgs pid h (30 * Second) n
  have hne : (run fp w execArgs pid h
      (gapKicks h.status.LastSeen (30 * Second) n)).status.LastSeen ≠ 0 := by
    rw [hls, hS]
    have h1 : (0 : Int) ≤ (n : Int) := Int.ofNat_nonneg n
    generalize h.status.LastSeen = l at hL ⊢
    delta Time at *
    omega
  obtain ⟨r1, r2, r3⟩ := kick_recurrence fp w
    (run fp w execArgs pid h (gapKicks h.status.LastSeen (30 * Second) n))
    (h.status.LastSeen + ((n : Int) + 1) * (30 * Second)) hne
  have hsub : Sub (h.status.LastSeen + ((n : Int) + 1) * (30 * Second))
      (run fp w execArgs pid h
        (gapKicks h.status.LastSeen (30 * Second) n)).status.LastSeen = 30 * Second := by
    rw [hls]
    have e : h.status.LastSeen + ((n : Int) + 1) * (30 * Second) -
        (h.status.LastSeen + (n : Int) * (30 * Second)) = 30 * Second := by ring
    unfold Sub
    rw [e, hS]
    unfold minDuration maxDuration
    norm_num
  rw [hsub] at r1 r2
  rw [run_gapKicks_succ]
  generalize (run fp w execArgs pid h
    (gapKicks h.status.LastSeen (30 * Second) n)).status.IntervalMean = m at hm r1 r2 ⊢
  obtain ⟨m0, m1⟩ := hm
  rw [hS] at m1
  have hw : wrap64 (30 * Second - m) = 30 * Second - m := by
    apply wrap64_of_range
    · rw [hS]; unfold minDuration; delta Duration at *; omega
    · rw [hS]; unfold maxDuration; delta Duration at *; omega
  rw [hw] at r1 r2
  obtain ⟨f0, f1⟩ := hfp (30 * Second - m)
    (by rw [hS]; delta Duration at *; omega)
    (by rw [hS]; delta Duration at *; omega)
  generalize fp.toInt (fp.mul fp.meanAlpha (fp.ofInt (30 * Second - m))) = incr at f0 f1 r1 ⊢
  rw [hS] at f1
  rw [wrap64_of_range (m + incr)
    (by unfold minDuration; delta Duration at *; omega)
    (by unfold maxDuration; delta Duration at *; omega)] at r1
  exact ⟨r1, r2, r3⟩

/-- Under kicks at gaps of 30 seconds from a mean of 0, the mean stays between 0
and 30 seconds, for every float implementation whose increment is between 0
and the distance to 30 seconds. -/
theorem gap_mean_bounds (h : Handler F) (hL : 0 < h.status.LastSeen)
    (hm : h.status.IntervalMean = 0)
    (hfp : ∀ d : Int, 0 ≤ d → d ≤ 30 * Second →
      0 ≤ fp.toInt (fp.mul fp.meanAlpha (fp.ofInt d)) ∧
        fp.toInt (fp.mul fp.meanAlpha (fp.ofInt d)) ≤ d) (n : Nat) :
    0 ≤ (run fp w execArgs pid h
        (gapKicks h.status.LastSeen (30 * Second) n)).status.IntervalMean ∧
      (run fp w execArgs pid h
        (gapKicks h.status.LastSeen (30 * Second) n)).status.IntervalMean ≤ 30 * Second := by
  have hS : (30 : Int) * Second = 30000000000 := by unfold Second; norm_num
  induction n with
  | zero =>
    have e0 : run fp w execArgs pid h (gapKicks h.status.LastSeen (30 * Second) 0) = h := rfl
    rw [e0, hm, hS]
    constructor <;> norm_num
  | succ n ih =>
    obtain ⟨r1, _, _⟩ := gap_step fp w execArgs pid h n hL hfp ih
    rw [r1]
    obtain ⟨m0, m1⟩ := ih
    generalize (run fp w execArgs pid h
      (gapKicks h.status.LastSeen (30 * Second) n)).status.IntervalMean = m at m0 m1 ⊢
    rw [hS] at m1
    obtain ⟨f0, f1⟩ := hfp (30 * Second - m)
      (by rw [hS]; delta Duration at *; omega)
      (by rw [hS]; delta Duration at *; omega)
    generalize fp.toInt (fp.mul fp.meanAlpha (fp.ofInt (30 * Second - m))) = incr at f0 f1 ⊢
    rw [hS] at f1 ⊢
    delta Duration at *
    constructor <;> omega

theorem restGap_bounds (n : Nat) : 6 ≤ restGap n ∧ restGap n ≤ 30000000000 := by
  induction n with
  | zero => simp only [restGap, Second]; constructor <;> norm_num
  | succ n ih =>
    obtain ⟨h1, h2⟩ := ih
    simp only [restGap]
    constructor <;> omega

set_option maxRecDepth 10000 in
theorem restGap_141 : restGap 141 = 6 := by decide

theorem restGap_rest (n : Nat) (hn : 141 ≤ n) : restGap n = 6 := by
  induction n with
  | zero => omega
  | succ n ih =>
    rcases Nat.lt_or_ge n 141 with h | h
    · have : n + 1 = 141 := by omega
      rw [this]; exact restGap_141
    · simp only [restGap, ih h]
      norm_num

/-- When the increment is the integer part of 0.15 times the distance, the mean
after `n` kicks is 30 seconds less `restGap n`. -/
theorem gap_mean_exact (h : Handler F) (hL : 0 < h.status.LastSeen)
    (hm : h.status.IntervalMean = 0)
    (hfp : ∀ d : Int, 0 ≤ d → d ≤ 30 * Second →
      fp.toInt (fp.mul fp.meanAlpha (fp.ofInt d)) = 3 * d / 20) (n : Nat) :
    (run fp w execArgs pid h
        (gapKicks h.status.LastSeen (30 * Second) n)).status.IntervalMean =
      30 * Second - restGap n := by
  have hS : (30 : Int) * Second = 30000000000 := by unfold Second; norm_num
  have hweak : ∀ d : Int, 0 ≤ d → d ≤ 30 * Second →
      0 ≤ fp.toInt (fp.mul fp.meanAlpha (fp.ofInt d)) ∧
        fp.toInt (fp.mul fp.meanAlpha (fp.ofInt d)) ≤ d := by
    intro d d0 d1
    rw [hfp d d0 d1]
    delta Duration at *
    constructor <;> omega
  induction n with
  | zero =>
    have e0 : run fp w execArgs pid h (gapKicks h.status.LastSeen (30 * Second) 0) = h := rfl
    rw [e0, hm]
    simp only [restGap]
    norm_num
  | succ n ih =>
    obtain ⟨r1, _, _⟩ := gap_step fp w execArgs pid h n hL hweak
      (gap_mean_bounds fp w execArgs pid h hL hm hweak n)
    obtain ⟨g1, g2⟩ := restGap_bounds n
    rw [r1, ih]
    have e : 30 * Second - (30 * Second - restGap n) = restGap n := by ring
    rw [e, hfp (restGap n) (by omega) (by rw [hS]; exact g2)]
    simp only [restGap]
    ring

end EventLoop

/-! ## The statistics in exact arithmetic -/

theorem exact_trunc (d : Int) (h0 : 0 ≤ d) :
    exactArith.toInt (exactArith.mul exactArith.meanAlpha (exactArith.ofInt d)) =
      3 * d / 20 := by
  show (if 0 ≤ (3 / 20 : ℚ) * (d : ℚ) then ⌊(3 / 20 : ℚ) * (d : ℚ)⌋
    else ⌈(3 / 20 : ℚ) * (d : ℚ)⌉) = 3 * d / 20
  have hd : (0 : ℚ) ≤ (d : ℚ) := by exact_mod_cast h0
  rw [if_pos (by positivity)]
  rw [Int.floor_eq_iff]
  have h1 : 20 * (3 * d / 20) ≤ 3 * d := by omega
  have h2 : 3 * d < 20 * (3 * d / 20) + 20 := by omega
  have h1' : (20 : ℚ) * ((3 * d / 20 : Int) : ℚ) ≤ 3 * (d : ℚ) := by exact_mod_cast h1
  have h2' : 3 * (d : ℚ) < 20 * ((3 * d / 20 : Int) : ℚ) + 20 := by exact_mod_cast h2
  constructor <;> linarith

theorem exact_trunc_gap (d : Int) (h0 : 0 ≤ d) (_h1 : d ≤ 30 * Second) :
    exactArith.toInt (exactArith.mul exactArith.meanAlpha (exactArith.ofInt d)) =
      3 * d / 20 := exact_trunc d h0

theorem exact_trunc_bounds (d : Int) (h0 : 0 ≤ d) (_h1 : d ≤ 30 * Second) :
    0 ≤ exactArith.toInt (exactArith.mul exactArith.meanAlpha (exactArith.ofInt d)) ∧
      exactArith.toInt (exactArith.mul exactArith.meanAlpha (exactArith.ofInt d)) ≤ d := by
  rw [exact_trunc d h0]
  constructor <;> omega

theorem exact_variance_step (w : Watch) (execArgs : List GoString) (pid : Int)
    (h : Handler ℚ) (hL : 0 < h.status.LastSeen) (hm : h.status.IntervalMean = 0) (n : Nat) :
    (run exactArith w execArgs pid h
        (gapKicks h.status.LastSeen (30 * Second) (n + 1))).variance =
      17 / 20 * ((run exactArith w execArgs pid h
          (gapKicks h.status.LastSeen (30 * Second) n)).variance +
        (restGap n : ℚ) * (3 / 20 * (restGap n : ℚ))) := by
  obtain ⟨_, r2, _⟩ := gap_step exactArith w execArgs pid h n hL exact_trunc_bounds
    (gap_mean_bounds exactArith w execArgs pid h hL hm exact_trunc_bounds n)
  rw [r2, gap_mean_exact exactArith w execArgs pid h hL hm exact_trunc_gap n]
  have e : 30 * Second - (30 * Second - restGap n) = restGap n := by ring
  rw [e]
  rfl

theorem exact_stddev (w : Watch) (execArgs : List GoString) (pid : Int)
    (h : Handler ℚ) (hL : 0 < h.status.LastSeen) (hm : h.status.IntervalMean = 0) (n : Nat) :
    (run exactArith w execArgs pid h
        (gapKicks h.status.LastSeen (30 * Second) (n + 1))).status.IntervalStdDev =
      (Nat.sqrt ⌊(run exactArith w execArgs pid h
        (gapKicks h.status.LastSeen (30 * Second) (n + 1))).variance⌋.toNat : Int) := by
  obtain ⟨_, _, r3⟩ := gap_step exactArith w execArgs pid h n hL exact_trunc_bounds
    (gap_mean_bounds exactArith w execArgs pid h hL hm exact_trunc_bounds n)
  rw [r3]
  generalize (run exactArith w execArgs pid h
    (gapKicks h.status.LastSeen (30 * Second) (n + 1))).variance = v
  show (if 0 ≤ ((Nat.sqrt ⌊v⌋.toNat : ℕ) : ℚ) then ⌊((Nat.sqrt ⌊v⌋.toNat : ℕ) : ℚ)⌋
    else ⌈((Nat.sqrt ⌊v⌋.toNat : ℕ) : ℚ)⌉) = _
  rw [if_pos (Nat.cast_nonneg _), Int.floor_natCast]

theorem exact_variance_lower (w : Watch) (execArgs : List GoString) (pid : Int)
    (h : Handler ℚ) (hL : 0 < h.status.LastSeen) (hm : h.status.IntervalMean = 0)
    (hv : h.variance = 0) (n : Nat) :
    153 / 5 ≤ (run exactArith w execArgs pid h
      (gapKicks h.status.LastSeen (30 * Second) (n + 1))).variance := by
  induction n with
  | zero =>
    rw [exact_variance_step w execArgs pid h hL hm 0]
    have e0 : run exactArith w execArgs pid h
        (gapKicks h.status.LastSeen (30 * Second) 0) = h := rfl
    rw [e0, hv]
    simp only [restGap, Second]
    norm_num
  | succ n ih =>
    rw [exact_variance_step w execArgs pid h hL hm (n + 1)]
    have g : (6 : ℚ) ≤ (restGap (n + 1) : ℚ) := by exact_mod_cast (restGap_bounds (n + 1)).1
    nlinarith

theorem exact_variance_upper (w : Watch) (execArgs : List GoString) (pid : Int)
    (h : Handler ℚ) (hL : 0 < h.status.LastSeen) (hm : h.status.IntervalMean = 0)
    (hv : h.variance = 0) (n : Nat) :
    (run exactArith w execArgs pid h
      (gapKicks h.status.LastSeen (30 * Second) n)).variance ≤
        17 / 20 * 30000000000 ^ 2 := by
  induction n with
  | zero =>
    have e0 : run exactArith w execArgs pid h
        (gapKicks h.status.LastSeen (30 * Second) 0) = h := rfl
    rw [e0, hv]
    norm_num
  | succ n ih =>
    rw [exact_variance_step w execArgs pid h hL hm n]
    have g1 : (0 : ℚ) ≤ (restGap n : ℚ) := by
      have := (restGap_bounds n).1
      exact_mod_cast (by omega : (0 : Int) ≤ restGap n)
    have g2 : (restGap n : ℚ) ≤ 30000000000 := by exact_mod_cast (restGap_bounds n).2
    have g3 : (restGap n : ℚ) * (restGap n : ℚ) ≤ 30000000000 * 30000000000 :=
      mul_le_mul g2 g2 g1 (by norm_num)
    nlinarith

theorem exact_variance_tail (w : Watch) (execArgs : List GoString) (pid : Int)
    (h : Handler ℚ) (hL : 0 < h.status.LastSeen) (hm : h.status.IntervalMean = 0) (k : Nat) :
    (run exactArith w execArgs pid h
        (gapKicks h.status.LastSeen (30 * Second) (141 + k))).variance - 153 / 5 =
      (17 / 20) ^ k * ((run exactArith w execArgs pid h
        (gapKicks h.status.LastSeen (30 * Second) 141)).variance - 153 / 5) := by
  induction k with
  | zero => simp
  | succ k ih =>
    have e : 141 + (k + 1) = (141 + k) + 1 := by omega
    rw [e, exact_variance_step w execArgs pid h hL hm (141 + k),
      restGap_rest (141 + k) (by omega), pow_succ, mul_right_comm, ← ih]
    push_cast
    ring

/-- In exact arithmetic the standard deviation is at least 5 ns after every
kick of the trajectory and is 5 ns from the 430th kick on. -/
theorem exact_stddev_rest (w : Watch) (execArgs : List GoString) (pid : Int)
    (h : Handler ℚ) (hL : 0 < h.status.LastSeen) (hm : h.status.IntervalMean = 0)
    (hv : h.variance = 0) :
    (∀ n : Nat, 1 ≤ n →
      5 ≤ (run exactArith w execArgs pid h
        (gapKicks h.status.LastSeen (30 * Second) n)).status.IntervalStdDev) ∧
    (∀ n : Nat, 430 ≤ n →
      (run exactArith w execArgs pid h
        (gapKicks h.status.LastSeen (30 * Second) n)).status.IntervalStdDev = 5) := by
  constructor
  · intro n hn
    obtain ⟨m, rfl⟩ : ∃ m, n = m + 1 := ⟨n - 1, by omega⟩
    rw [exact_stddev w execArgs pid h hL hm m]
    have hlow := exact_variance_lower w execArgs pid h hL hm hv m
    generalize (run exactArith w execArgs pid h
      (gapKicks h.status.LastSeen (30 * Second) (m + 1))).variance = v at hlow ⊢
    have h30 : (30 : Int) ≤ ⌊v⌋ := by
      rw [Int.le_floor]; push_cast; linarith
    have h25 : 25 ≤ ⌊v⌋.toNat := by omega
    have : 5 ≤ Nat.sqrt ⌊v⌋.toNat := Nat.le_sqrt.mpr (by omega)
    exact_mod_cast this
  · intro n hn
    obtain ⟨m, rfl⟩ : ∃ m, n = m + 1 := ⟨n - 1, by omega⟩
    rw [exact_stddev w execArgs pid h hL hm m]
    have hlow := exact_variance_lower w execArgs pid h hL hm hv m
    obtain ⟨k, hk⟩ : ∃ k, m + 1 = 141 + k := ⟨m + 1 - 141, by omega⟩
    have hk289 : 289 ≤ k := by omega
    have htail := exact_variance_tail w execArgs pid h hL hm k
    have hup := exact_variance_upper w execArgs pid h hL hm hv 141
    rw [← hk] at htail
    generalize (run exactArith w execArgs pid h
      (gapKicks h.status.LastSeen (30 * Second) (m + 1))).variance = v at hlow htail ⊢
    generalize (run exactArith w execArgs pid h
      (gapKicks h.status.LastSeen (30 * Second) 141)).variance = v0 at htail hup
    have hpow : (17 / 20 : ℚ) ^ k ≤ (17 / 20) ^ 289 :=
      pow_le_pow_of_le_one (by norm_num) (by norm_num) hk289
    have hnum : (17 / 20 : ℚ) ^ 289 * (17 / 20 * 30000000000 ^ 2) < 27 / 5 := by norm_num
    have hpos : (0 : ℚ) ≤ (17 / 20) ^ k := by positivity
    have hv36 : v < 36 := by
      have h1 : (17 / 20 : ℚ) ^ k * (v0 - 153 / 5) ≤ (17 / 20) ^ k * (17 / 20 * 30000000000 ^ 2) :=
        mul_le_mul_of_nonneg_left (by linarith) hpos
      have h2 : (17 / 20 : ℚ) ^ k * (17 / 20 * 30000000000 ^ 2) ≤
          (17 / 20) ^ 289 * (17 / 20 * 30000000000 ^ 2) :=
        mul_le_mul_of_nonneg_right hpow (by norm_num)
      linarith
    have h30 : (30 : Int) ≤ ⌊v⌋ := by
      rw [Int.le_floor]; push_cast; linarith
    have h36 : ⌊v⌋ < 36 := by
      rw [Int.floor_lt]; push_cast; linarith
    have hs : Nat.sqrt ⌊v⌋.toNat = 5 := by
      symm
      rw [Nat.eq_sqrt]
      constructor <;> omega
    rw [hs]
    rfl

/-! ## The claims on the event loop -/

/-- C1: for a watch whose trigger is Manual or Post, from any state and for any
run of N consecutive expiries (at any firing times) the counter `MissedReports`
ends at its starting value plus N while `LastSeen`, the mean and the standard
deviation are unchanged; a kick processed next at time `k` sets `MissedReports`
to 0, `LastSeen` to `k` and `Due` to `k` plus the interval. -/
theorem missed_reports_count {F : Type} (fp : Float64Ops F) (w : Watch)
    (execArgs : List GoString) (pid : Int) (h : Handler F) (ts : List Time) (k : Time)
    (hw : w.Trigger = TriggerType.Manual ∨ w.Trigger = TriggerType.Post) :
    ((run fp w execArgs pid h (ts.map Event.expiry)).status.MissedReports =
        h.status.MissedReports + ts.length ∧
      (run fp w execArgs pid h (ts.map Event.expiry)).status.LastSeen = h.status.LastSeen ∧
      (run fp w execArgs pid h (ts.map Event.expiry)).status.IntervalMean =
        h.status.IntervalMean ∧
      (run fp w execArgs pid h (ts.map Event.expiry)).status.IntervalStdDev =
        h.status.IntervalStdDev) ∧
    ((run fp w execArgs pid h (ts.map Event.expiry ++ [Event.kick k])).status.MissedReports = 0 ∧
      (run fp w execArgs pid h (ts.map Event.expiry ++ [Event.kick k])).status.LastSeen = k ∧
      (run fp w execArgs pid h (ts.map Event.expiry ++ [Event.kick k])).status.Due =
        k + w.Interval) := by
  have hw' : w.Trigger ≠ TriggerType.Periodic := by
    rcases hw with hw | hw <;> rw [hw] <;> decide
  obtain ⟨h1, h2, h3, h4, _⟩ := run_expiries_not_periodic fp w execArgs pid hw' ts h
  refine ⟨⟨h1, h2, h3, h4⟩, ?_⟩
  rw [run_snoc, step_kick]
  obtain ⟨k1, k2, k3⟩ := kick_status fp w (run fp w execArgs pid h (ts.map Event.expiry)) k
  exact ⟨k2, k1, k3⟩

/-- C1 at a manual watch with an interval of 10 seconds: three expiries, then a
kick. -/
theorem missed_reports_count_witness :
    (manualWatch.Trigger = TriggerType.Manual ∨ manualWatch.Trigger = TriggerType.Post) ∧
    (run exactArith manualWatch [] 1 (eventHandlerInit exactArith manualWatch freshStatus 100)
        ([110, 120, 130].map Event.expiry)).status.MissedReports = 3 ∧
    (run exactArith manualWatch [] 1 (eventHandlerInit exactArith manualWatch freshStatus 100)
        ([110, 120, 130].map Event.expiry ++ [Event.kick 135])).status.Due =
      135 + 10 * Second :=
  ⟨by decide,
   (missed_reports_count exactArith manualWatch [] 1
      (eventHandlerInit exactArith manualWatch freshStatus 100) [110, 120, 130] 135
      (by decide)).1.1,
   (missed_reports_count exactArith manualWatch [] 1
      (eventHandlerInit exactArith manualWatch freshStatus 100) [110, 120, 130] 135
      (by decide)).2.2.2⟩

/-- C2: for a periodic watch started with `MissedReports` at 0, in every state
reached through any sequence of expiry, kick and query events `MissedReports` is
0, and right after an expiry firing at time `t` (whatever came before it, so
also after N consecutive expiries) `LastSeen` is `t`. -/
theorem periodic_never_late {F : Type} (fp : Float64Ops F) (w : Watch)
    (execArgs : List GoString) (pid : Int) (st : WatchDogStatus) (now : Time)
    (hw : w.Trigger = TriggerType.Periodic) (hst : st.MissedReports = 0) :
    (∀ events : List Event,
      (run fp w execArgs pid (eventHandlerInit fp w st now) events).status.MissedReports = 0) ∧
    (∀ (events : List Event) (t : Time),
      (run fp w execArgs pid (eventHandlerInit fp w st now)
        (events ++ [Event.expiry t])).status.LastSeen = t) ∧
    (∀ (ts : List Time) (t : Time),
      (run fp w execArgs pid (eventHandlerInit fp w st now)
        ((ts ++ [t]).map Event.expiry)).status.LastSeen = t) := by
  have key : ∀ (events : List Event) (t : Time),
      (run fp w execArgs pid (eventHandlerInit fp w st now)
        (events ++ [Event.expiry t])).status.LastSeen = t := by
    intro events t
    rw [run_snoc, step_expiry_status, expire_periodic w hw]
  refine ⟨fun events => ?_, key, fun ts t => ?_⟩
  · exact run_periodic_missed fp w execArgs pid hw events _
      ((init_status fp w st now).2.trans hst)
  · rw [List.map_append]; exact key _ t

/-- C2 at a periodic watch with an interval of 10 seconds. -/
theorem periodic_never_late_witness :
    periodicWatch.Trigger = TriggerType.Periodic ∧ freshStatus.MissedReports = 0 ∧
    (run exactArith periodicWatch [] 1 (eventHandlerInit exactArith periodicWatch freshStatus 100)
        [Event.expiry 110, Event.query, Event.expiry 120]).status.MissedReports = 0 ∧
    (run exactArith periodicWatch [] 1 (eventHandlerInit exactArith periodicWatch freshStatus 100)
        ([Event.expiry 110, Event.query] ++ [Event.expiry 120])).status.LastSeen = 120 :=
  ⟨by decide, by decide,
   (periodic_never_late exactArith periodicWatch [] 1 freshStatus 100 (by decide)
      (by decide)).1 _,
   (periodic_never_late exactArith periodicWatch [] 1 freshStatus 100 (by decide)
      (by decide)).2.1 _ 120⟩

/-- C3 as stated fails: a manual watch created at time 100 with no `LastSeen` and
an interval of 10 seconds has, after its timer fires at time 10000000100,
`LastSeen` still unset and `Due` at 20000000100, not at the creation time plus
the interval. -/
theorem due_invariant_broken_by_expiry :
    ¬ DueInvariant manualWatch 100
      (run exactArith manualWatch [] 1 (eventHandlerInit exactArith manualWatch freshStatus 100)
        [Event.expiry 10000000100]).status := by
  decide

/-- C3 amended: in every state reached from initialization through any sequence
of kick, expiry and query events, `Due` is the interval after the latest kick or
expiry, and before any of them the interval after `LastSeen` when that is set
and after the creation time when it is not.  So the invariant of the
specification holds at initialization, `Due` is `LastSeen` plus the interval
after every kick and after every expiry of a periodic watch, and after an
expiry at time `t` of a watch that is not periodic `Due` is `t` plus the
interval while `LastSeen` is unchanged. -/
theorem due_follows_last_event {F : Type} (fp : Float64Ops F) (w : Watch)
    (execArgs : List GoString) (pid : Int) (st : WatchDogStatus) (now : Time)
    (events : List Event) :
    (run fp w execArgs pid (eventHandlerInit fp w st now) events).status.Due =
        lastArmed (if st.LastSeen ≠ 0 then st.LastSeen else now) events + w.Interval ∧
    DueInvariant w now (eventHandlerInit fp w st now).status ∧
    (∀ k : Time,
      (run fp w execArgs pid (eventHandlerInit fp w st now)
          (events ++ [Event.kick k])).status.Due =
        (run fp w execArgs pid (eventHandlerInit fp w st now)
          (events ++ [Event.kick k])).status.LastSeen + w.Interval) ∧
    (∀ t : Time, w.Trigger = TriggerType.Periodic →
      (run fp w execArgs pid (eventHandlerInit fp w st now)
          (events ++ [Event.expiry t])).status.Due =
        (run fp w execArgs pid (eventHandlerInit fp w st now)
          (events ++ [Event.expiry t])).status.LastSeen + w.Interval) ∧
    (∀ t : Time, w.Trigger ≠ TriggerType.Periodic →
      (run fp w execArgs pid (eventHandlerInit fp w st now)
          (events ++ [Event.expiry t])).status.Due = t + w.Interval ∧
      (run fp w execArgs pid (eventHandlerInit fp w st now)
          (events ++ [Event.expiry t])).status.LastSeen =
        (run fp w execArgs pid (eventHandlerInit fp w st now) events).status.LastSeen) := by
  refine ⟨run_due fp w execArgs pid events _ _ (init_due fp w st now), ?_, ?_, ?_, ?_⟩
  · unfold DueInvariant
    rw [init_due, (init_status fp w st now).1]
  · intro k
    rw [run_snoc, step_kick]
    obtain ⟨h1, _, h3⟩ := kick_status fp w (run fp w execArgs pid (eventHandlerInit fp w st now) events) k
    rw [h1, h3]
  · intro t hw
    rw [run_snoc, step_expiry_status, expire_periodic w hw]
  · intro t hw
    rw [run_snoc, step_expiry_status, expire_not_periodic w hw]
    exact ⟨rfl, rfl⟩

/-- C3 amended, at a periodic watch after a kick and an expiry. -/
theorem due_follows_last_event_witness :
    periodicWatch.Trigger = TriggerType.Periodic ∧
    (run exactArith periodicWatch [] 1 (eventHandlerInit exactArith periodicWatch freshStatus 100)
        ([Event.kick 105] ++ [Event.expiry 115])).status.Due =
      (run exactArith periodicWatch [] 1 (eventHandlerInit exactArith periodicWatch freshStatus 100)
        ([Event.kick 105] ++ [Event.expiry 115])).status.LastSeen + periodicWatch.Interval :=
  ⟨by decide,
   (due_follows_last_event exactArith periodicWatch [] 1 freshStatus 100
      [Event.kick 105]).2.2.2.1 115 (by decide)⟩

/-! ## The claim on the statistics -/

theorem seen_start :
    (eventHandlerInit exactArith postWatch seenStatus someDay).status.LastSeen = someDay ∧
    0 < (eventHandlerInit exactArith postWatch seenStatus someDay).status.LastSeen ∧
    (eventHandlerInit exactArith postWatch seenStatus someDay).status.IntervalMean = 0 ∧
    (eventHandlerInit exactArith postWatch seenStatus someDay).variance = 0 := by
  refine ⟨by decide, by decide, by decide, ?_⟩
  show ((0 : Int) : ℚ) * ((0 : Int) : ℚ) = 0
  norm_num

/-- C6 as stated fails: from a mean and a standard deviation of 0 and a last
check-in at `someDay`, under kicks at exact gaps of 30 seconds and with the
float operations computed exactly, the standard deviation does not approach 0
(it is at least 5 ns after every kick) and the mean does not approach 30
seconds (it stays at least 6 ns below). -/
theorem ewma_stops_short :
    ¬ Approaches
      (fun n => (run exactArith postWatch [] 1
        (eventHandlerInit exactArith postWatch seenStatus someDay)
        (gapKicks someDay (30 * Second) n)).status.IntervalStdDev) 0 ∧
    ¬ Approaches
      (fun n => (run exactArith postWatch [] 1
        (eventHandlerInit exactArith postWatch seenStatus someDay)
        (gapKicks someDay (30 * Second) n)).status.IntervalMean) (30 * Second) := by
  obtain ⟨s1, s2, s3, s4⟩ := seen_start
  constructor
  · intro hA
    obtain ⟨N, hN⟩ := hA 1 one_pos
    have h5 := (exact_stddev_rest postWatch [] 1
      (eventHandlerInit exactArith postWatch seenStatus someDay) s2 s3 s4).1 (N + 1) (by omega)
    rw [s1] at h5
    have hlt := hN (N + 1) (by omega)
    simp only [Int.cast_zero, sub_zero] at hlt
    have h5' : (5 : ℚ) ≤ ((run exactArith postWatch [] 1
        (eventHandlerInit exactArith postWatch seenStatus someDay)
        (gapKicks someDay (30 * Second) (N + 1))).status.IntervalStdDev : ℚ) := by
      exact_mod_cast h5
    rw [abs_of_nonneg (by linarith)] at hlt
    linarith
  · intro hA
    obtain ⟨N, hN⟩ := hA 1 one_pos
    have hm := gap_mean_exact exactArith postWatch [] 1
      (eventHandlerInit exactArith postWatch seenStatus someDay) s2 s3 exact_trunc_gap N
    rw [s1] at hm
    have hlt := hN N le_rfl
    simp only [hm] at hlt
    have h6 : (6 : ℚ) ≤ (restGap N : ℚ) := by exact_mod_cast (restGap_bounds N).1
    have e : (((30 * Second - restGap N : Int)) : ℚ) - ((30 * Second : Int) : ℚ) =
        -(restGap N : ℚ) := by
      push_cast; ring
    rw [e, abs_neg, abs_of_nonneg (by linarith)] at hlt
    linarith

/-- C6 amended: from a mean of 0 and a prior `LastSeen`, under kicks at exact
gaps of 30 seconds, the mean, the variance and the standard deviation after
each kick are given by the recurrence `diff = 30 s - mean`,
`incr = meanAlpha * diff`, `mean = mean + Duration(incr)`,
`variance = (1 - meanAlpha) * (variance + diff * incr)`,
`stddev = Duration(sqrt(variance))` in the float operations of the handler, and
the mean after every kick is at least the mean before it and at most 30
seconds, for every float implementation whose truncated increment
`Duration(meanAlpha * d)` lies between 0 and `d` for `0 ≤ d ≤ 30 s`.  When
that increment is the integer part of `3 d / 20`, the mean stays at least 6 ns
below 30 seconds and is 30 s - 6 ns from kick 141 on.  With the float
operations computed exactly (and a variance of 0 at the start) the standard
deviation is at least 5 ns after every kick and is 5 ns from kick 430 on. -/
theorem ewma_trajectory {F : Type} (fp : Float64Ops F) (w : Watch)
    (execArgs : List GoString) (pid : Int) (h : Handler F)
    (hL : 0 < h.status.LastSeen) (hm : h.status.IntervalMean = 0)
    (hfp : ∀ d : Int, 0 ≤ d → d ≤ 30 * Second →
      0 ≤ fp.toInt (fp.mul fp.meanAlpha (fp.ofInt d)) ∧
        fp.toInt (fp.mul fp.meanAlpha (fp.ofInt d)) ≤ d) :
    (∀ n : Nat,
      (run fp w execArgs pid h
          (gapKicks h.status.LastSeen (30 * Second) (n + 1))).status.IntervalMean =
        (run fp w execArgs pid h
            (gapKicks h.status.LastSeen (30 * Second) n)).status.IntervalMean +
          fp.toInt (fp.mul fp.meanAlpha (fp.ofInt (30 * Second -
            (run fp w execArgs pid h
              (gapKicks h.status.LastSeen (30 * Second) n)).status.IntervalMean))) ∧
      (run fp w execArgs pid h (gapKicks h.status.LastSeen (30 * Second) (n + 1))).variance =
        fp.mul fp.oneMinusAlpha
          (fp.add
            (run fp w execArgs pid h (gapKicks h.status.LastSeen (30 * Second) n)).variance
            (fp.mul
              (fp.ofInt (30 * Second -
                (run fp w execArgs pid h
                  (gapKicks h.status.LastSeen (30 * Second) n)).status.IntervalMean))
              (fp.mul fp.meanAlpha (fp.ofInt (30 * Second -
                (run fp w execArgs pid h
                  (gapKicks h.status.LastSeen (30 * Second) n)).status.IntervalMean))))) ∧
      (run fp w execArgs pid h
          (gapKicks h.status.LastSeen (30 * Second) (n + 1))).status.IntervalStdDev =
        fp.toInt (fp.sqrt
          (run fp w execArgs pid h
            (gapKicks h.status.LastSeen (30 * Second) (n + 1))).variance)) ∧
    (∀ n : Nat,
      (run fp w execArgs pid h
          (gapKicks h.status.LastSeen (30 * Second) n)).status.IntervalMean ≤
        (run fp w execArgs pid h
          (gapKicks h.status.LastSeen (30 * Second) (n + 1))).status.IntervalMean) ∧
    (∀ n : Nat,
      (run fp w execArgs pid h
          (gapKicks h.status.LastSeen (30 * Second) n)).status.IntervalMean ≤ 30 * Second) ∧
    ((∀ d : Int, 0 ≤ d → d ≤ 30 * Second →
        fp.toInt (fp.mul fp.meanAlpha (fp.ofInt d)) = 3 * d / 20) →
      (∀ n : Nat,
        (run fp w execArgs pid h
            (gapKicks h.status.LastSeen (30 * Second) n)).status.IntervalMean ≤
          30 * Second - 6) ∧
      (∀ n : Nat, 141 ≤ n →
        (run fp w execArgs pid h
            (gapKicks h.status.LastSeen (30 * Second) n)).status.IntervalMean =
          30 * Second - 6)) ∧
    (∀ (w₁ : Watch) (h₁ : Handler ℚ), 0 < h₁.status.LastSeen → h₁.status.IntervalMean = 0 →
      h₁.variance = 0 →
      (∀ n : Nat, 141 ≤ n →
        (run exactArith w₁ execArgs pid h₁
            (gapKicks h₁.status.LastSeen (30 * Second) n)).status.IntervalMean =
          30 * Second - 6) ∧
      (∀ n : Nat, 1 ≤ n →
        5 ≤ (run exactArith w₁ execArgs pid h₁
          (gapKicks h₁.status.LastSeen (30 * Second) n)).status.IntervalStdDev) ∧
      (∀ n : Nat, 430 ≤ n →
        (run exactArith w₁ execArgs pid h₁
          (gapKicks h₁.status.LastSeen (30 * Second) n)).status.IntervalStdDev = 5)) := by
  have hb := gap_mean_bounds fp w execArgs pid h hL hm hfp
  refine ⟨fun n => gap_step fp w execArgs pid h n hL hfp (hb n), fun n => ?_,
    fun n => (hb n).2, fun hex => ⟨fun n => ?_, fun n hn => ?_⟩,
    fun w₁ h₁ hL₁ hm₁ hv₁ => ⟨fun n hn => ?_, ?_⟩⟩
  · obtain ⟨r1, _, _⟩ := gap_step fp w execArgs pid h n hL hfp (hb n)
    rw [r1]
    obtain ⟨m0, m1⟩ := hb n
    have hS : (30 : Int) * Second = 30000000000 := by unfold Second; norm_num
    generalize (run fp w execArgs pid h
      (gapKicks h.status.LastSeen (30 * Second) n)).status.IntervalMean = m at m0 m1 ⊢
    rw [hS] at m1
    obtain ⟨f0, _⟩ := hfp (30 * Second - m)
      (by rw [hS]; delta Duration at *; omega)
      (by rw [hS]; delta Duration at *; omega)
    generalize fp.toInt (fp.mul fp.meanAlpha (fp.ofInt (30 * Second - m))) = incr at f0 ⊢
    delta Duration at *
    omega
  · rw [gap_mean_exact fp w execArgs pid h hL hm hex n]
    have := (restGap_bounds n).1
    have hS : (30 : Int) * Second = 30000000000 := by unfold Second; norm_num
    generalize restGap n = g at this ⊢
    rw [hS]
    delta Duration at *
    omega
  · rw [gap_mean_exact fp w execArgs pid h hL hm hex n, restGap_rest n hn]
  · rw [gap_mean_exact exactArith w₁ execArgs pid h₁ hL₁ hm₁ exact_trunc_gap n,
      restGap_rest n hn]
  · exact exact_stddev_rest w₁ execArgs pid h₁ hL₁ hm₁ hv₁

/-- C6 amended, at the post watch `mail` after a check-in at `someDay`, in exact
arithmetic: the first kick brings the mean to 4.5 seconds, and after 141 kicks
it is 29999999994 ns. -/
theorem ewma_trajectory_witness :
    0 < (eventHandlerInit exactArith postWatch seenStatus someDay).status.LastSeen ∧
    (eventHandlerInit exactArith postWatch seenStatus someDay).status.IntervalMean = 0 ∧
    (∀ d : Int, 0 ≤ d → d ≤ 30 * Second →
      0 ≤ exactArith.toInt (exactArith.mul exactArith.meanAlpha (exactArith.ofInt d)) ∧
        exactArith.toInt (exactArith.mul exactArith.meanAlpha (exactArith.ofInt d)) ≤ d) ∧
    (run exactArith postWatch [] 1 (eventHandlerInit exactArith postWatch seenStatus someDay)
        (gapKicks (eventHandlerInit exactArith postWatch seenStatus someDay).status.LastSeen
          (30 * Second) 141)).status.IntervalMean = 30 * Second - 6 :=
  ⟨seen_start.2.1, seen_start.2.2.1, exact_trunc_bounds,
   ((ewma_trajectory exactArith postWatch [] 1
      (eventHandlerInit exactArith postWatch seenStatus someDay) seen_start.2.1
      seen_start.2.2.1 exact_trunc_bounds).2.2.2.1 exact_trunc_gap).2 141 le_rfl⟩

/-- C7: a kick processed in a state whose `LastSeen` is unset leaves the mean, the
standard deviation and the carried variance exactly as they were, and sets
`LastSeen` to the time of the kick, `MissedReports` to 0 and `Due` to that time
plus the interval; an expiry and a query leave the mean, the standard deviation
and the variance unchanged in every state. -/
theorem first_kick_keeps_statistics {F : Type} (fp : Float64Ops F) (w : Watch)
    (execArgs : List GoString) (pid : Int) (h : Handler F) :
    (∀ now : Time, h.status.LastSeen = 0 →
      (step fp w execArgs pid h (Event.kick now)).1.status.IntervalMean =
          h.status.IntervalMean ∧
        (step fp w execArgs pid h (Event.kick now)).1.status.IntervalStdDev =
          h.status.IntervalStdDev ∧
        (step fp w execArgs pid h (Event.kick now)).1.variance = h.variance ∧
        (step fp w execArgs pid h (Event.kick now)).1.status.LastSeen = now ∧
        (step fp w execArgs pid h (Event.kick now)).1.status.MissedReports = 0 ∧
        (step fp w execArgs pid h (Event.kick now)).1.status.Due = now + w.Interval) ∧
    (∀ t : Time,
      (step fp w execArgs pid h (Event.expiry t)).1.status.IntervalMean =
          h.status.IntervalMean ∧
        (step fp w execArgs pid h (Event.expiry t)).1.status.IntervalStdDev =
          h.status.IntervalStdDev ∧
        (step fp w execArgs pid h (Event.expiry t)).1.variance = h.variance) ∧
    ((step fp w execArgs pid h Event.query).1.status.IntervalMean = h.status.IntervalMean ∧
      (step fp w execArgs pid h Event.query).1.status.IntervalStdDev =
        h.status.IntervalStdDev ∧
      (step fp w execArgs pid h Event.query).1.variance = h.variance) := by
  refine ⟨fun now h0 => ?_, fun t => ?_, rfl, rfl, rfl⟩
  · rw [step_kick]
    obtain ⟨h1, h2, h3⟩ := kick_unset fp w h now h0
    obtain ⟨h4, h5, h6⟩ := kick_status fp w h now
    exact ⟨h1, h2, h3, h4, h5, h6⟩
  · rw [step_expiry_status, step_expiry_variance]
    exact ⟨(expire_stats w t h.status).1, (expire_stats w t h.status).2.1, rfl⟩

/-- C7 at the first kick of a post watch whose persisted statistics are a mean of
12 seconds and a standard deviation of 3 seconds. -/
theorem first_kick_keeps_statistics_witness :
    (eventHandlerInit exactArith postWatch
        { freshStatus with IntervalMean := 12 * Second, IntervalStdDev := 3 * Second }
        100).status.LastSeen = 0 ∧
    (step exactArith postWatch [] 1
        (eventHandlerInit exactArith postWatch
          { freshStatus with IntervalMean := 12 * Second, IntervalStdDev := 3 * Second } 100)
        (Event.kick 150)).1.status.IntervalMean = 12 * Second ∧
    (step exactArith postWatch [] 1
        (eventHandlerInit exactArith postWatch
          { freshStatus with IntervalMean := 12 * Second, IntervalStdDev := 3 * Second } 100)
        (Event.kick 150)).1.status.IntervalStdDev = 3 * Second :=
  ⟨by decide,
   ((first_kick_keeps_statistics exactArith postWatch [] 1
      (eventHandlerInit exactArith postWatch
        { freshStatus with IntervalMean := 12 * Second, IntervalStdDev := 3 * Second } 100)).1
      150 (by decide)).1,
   ((first_kick_keeps_statistics exactArith postWatch [] 1
      (eventHandlerInit exactArith postWatch
        { freshStatus with IntervalMean := 12 * Second, IntervalStdDev := 3 * Second } 100)).1
      150 (by decide)).2.1⟩

/-- C9 as stated fails: when the timer of the manual watch `backup`, created at
`someDay` by process 4242 with the command `notify`, fires 10 seconds later, the
command `/bin/bash -c notify` is run with the environment `WOOF_PID=4242`,
`WOOF_ENDPOINT=backup`, `WOOF_LASTSEEN=0`, `WOOF_DUE=1700000020`,
`WOOF_MISSEDREPORTS=1`: the names are not `PID`, `ENDPOINT`, `LASTSEEN`, `DUE`
and `MISSEDREPORTS`. -/
theorem expiry_env_names_prefixed :
    (step exactArith manualWatch (myExecArgs bashArgs manualWatch.toWatchDogConfig) 4242
        (eventHandlerInit exactArith manualWatch freshStatus someDay)
        (Event.expiry (someDay + 10 * Second))).2 =
      Output.expired (some
        { name := str "/bin/bash"
          args := [str "-c", str "notify"]
          env := [str "WOOF_PID=4242", str "WOOF_ENDPOINT=backup", str "WOOF_LASTSEEN=0",
            str "WOOF_DUE=1700000020", str "WOOF_MISSEDREPORTS=1"] }) ∧
    [str "WOOF_PID=4242", str "WOOF_ENDPOINT=backup", str "WOOF_LASTSEEN=0",
        str "WOOF_DUE=1700000020", str "WOOF_MISSEDREPORTS=1"] ≠
      specEnv manualWatch 4242
        (step exactArith manualWatch (myExecArgs bashArgs manualWatch.toWatchDogConfig) 4242
          (eventHandlerInit exactArith manualWatch freshStatus someDay)
          (Event.expiry (someDay + 10 * Second))).1.status := by
  constructor
  · decide
  · decide

/-- C9 amended: on every expiry of a watch created by `NewWatch` with an expiry
action configured (a command prefix `name :: rest` and a non-empty `OnExpiry`),
the command `name rest... OnExpiry` is run with an environment of exactly five
entries, `WOOF_PID` (the process id), `WOOF_ENDPOINT` (the endpoint),
`WOOF_LASTSEEN` (`LastSeen` after this expiry in epoch seconds, 0 if unset),
`WOOF_DUE` (the recomputed `Due`, firing time plus interval, in epoch seconds)
and `WOOF_MISSEDREPORTS` (the counter after this expiry), in this order. -/
theorem expiry_command_env {F : Type} (fp : Float64Ops F) (ep : GoString)
    (cfg : WatchDogConfig) (chan : Nat) (name : GoString) (rest : List GoString) (pid : Int)
    (h : Handler F) (t : Time) (hcmd : cfg.OnExpiry ≠ []) :
    (step fp (NewWatch ep cfg chan) (myExecArgs (name :: rest) cfg) pid h (Event.expiry t)).2 =
      Output.expired (some
        { name := name
          args := rest ++ [cfg.OnExpiry]
          env :=
            [ str "WOOF_PID=" ++ fmtInt pid,
              str "WOOF_ENDPOINT=" ++ ep,
              str "WOOF_LASTSEEN=" ++ fmtInt
                (if (if cfg.Trigger = TriggerType.Periodic then t else h.status.LastSeen) = 0
                  then 0
                  else Unix (if cfg.Trigger = TriggerType.Periodic then t
                    else h.status.LastSeen)),
              str "WOOF_DUE=" ++ fmtInt (Unix (t + effectiveInterval cfg)),
              str "WOOF_MISSEDREPORTS=" ++ fmtInt
                (if cfg.Trigger = TriggerType.Periodic then h.status.MissedReports
                  else h.status.MissedReports + 1) ] }) := by
  have hlen : 0 < cfg.OnExpiry.length := List.length_pos.mpr hcmd
  by_cases hp : cfg.Trigger = TriggerType.Periodic
  · by_cases ht : t = 0 <;>
      simp [step, runCommand, commandEnv, myExecArgs, expire, NewWatch, hlen, hp, ht, IsZero, Add]
  · by_cases hl : h.status.LastSeen = 0 <;>
      simp [step, runCommand, commandEnv, myExecArgs, expire, NewWatch, hlen, hp, hl, IsZero, Add]

/-- C9 amended, at the post watch `mail` with the default command prefix. -/
theorem expiry_command_env_witness :
    postWatch.OnExpiry ≠ [] ∧
    (step exactArith (NewWatch (str "mail") postWatch.toWatchDogConfig 2)
        (myExecArgs (str "/bin/bash" :: [str "-c"]) postWatch.toWatchDogConfig) 4242
        (eventHandlerInit exactArith postWatch freshStatus someDay)
        (Event.expiry (someDay + 30 * Second))).2 =
      Output.expired (some
        { name := str "/bin/bash"
          args := [str "-c", str "page"]
          env := [str "WOOF_PID=4242", str "WOOF_ENDPOINT=mail", str "WOOF_LASTSEEN=0",
            str "WOOF_DUE=1700000060", str "WOOF_MISSEDREPORTS=1"] }) :=
  ⟨by decide,
   (expiry_command_env exactArith (str "mail") postWatch.toWatchDogConfig 2 (str "/bin/bash")
      [str "-c"] 4242 (eventHandlerInit exactArith postWatch freshStatus someDay)
      (someDay + 30 * Second) (by decide)).trans (by decide)⟩

/-! ## Dispatch -/

theorem dispatch_eq_find (r : Request) (path : GoString) (ws : Watches) :
    dispatch r path ws =
      match ws.find? (fun w => decide (w.Endpoint = path)) with
      | some w => w.ServeHttp r
      | none => (NotFound, []) := by
  induction ws with
  | nil => rfl
  | cons w ws ih =>
    by_cases h : w.Endpoint = path
    · simp [dispatch, List.find?, h]
    · simp [dispatch, List.find?, h, ih]

theorem serve_named (ws : Watches) (method name : GoString) (hname : name ≠ []) :
    ServeHTTP ws { Method := method, Path := 47 :: name } =
      dispatch { Method := method, Path := 47 :: name } name ws := by
  have : 0 < name.length := List.length_pos.mpr hname
  simp [ServeHTTP, this]

/-- C5: for every registry and every request whose path is `/` followed by a
non-empty name: when no watch has that endpoint the response is 404; otherwise,
for the first watch with that endpoint, a method other than POST gives 405 and
no kick, a POST gives 403 and no kick when the watch is periodic, a redirect
303 to `/` and exactly one kick (to that watch) when it is manual, and a plain
200 and exactly one kick (to that watch) when it is a post watch. -/
theorem dispatch_contract (ws : Watches) (method name : GoString) (hname : name ≠ []) :
    ((∀ w ∈ ws, w.Endpoint ≠ name) →
      ServeHTTP ws { Method := method, Path := 47 :: name } =
        (Response.error (str "404 page not found") 404, [])) ∧
    (∀ w : Watch, ws.find? (fun w => decide (w.Endpoint = name)) = some w →
      (method ≠ str "POST" →
        ServeHTTP ws { Method := method, Path := 47 :: name } =
          (Response.error (str "Method Not Allowed") 405, [])) ∧
      (method = str "POST" → w.Trigger = TriggerType.Periodic →
        ServeHTTP ws { Method := method, Path := 47 :: name } =
          (Response.error (str "Forbidden") 403, [])) ∧
      (method = str "POST" → w.Trigger = TriggerType.Manual →
        ServeHTTP ws { Method := method, Path := 47 :: name } =
          (Response.redirect (str "/") 303, [w.chan])) ∧
      (method = str "POST" → w.Trigger = TriggerType.Post →
        ServeHTTP ws { Method := method, Path := 47 :: name } =
          (Response.error (str "Watchdog kicked") 200, [w.chan]))) := by
  rw [serve_named ws method name hname, dispatch_eq_find]
  refine ⟨fun hnone => ?_, fun w hw => ?_⟩
  · have : ws.find? (fun w => decide (w.Endpoint = name)) = none := by
      rw [List.find?_eq_none]
      intro w hw
      simpa using hnone w hw
    rw [this]; rfl
  · rw [hw]
    refine ⟨fun hm => ?_, fun hm ht => ?_, fun hm ht => ?_, fun hm ht => ?_⟩
    · simp [Watch.ServeHttp, hm, StatusMethodNotAllowed]
    · simp [Watch.ServeHttp, hm, ht, StatusForbidden]
    · simp [Watch.ServeHttp, hm, ht, StatusSeeOther]
    · simp [Watch.ServeHttp, hm, ht, StatusOK]

/-- C5 at a registry of three watches: a POST to `/backup` reaches the manual
watch on channel 0. -/
theorem dispatch_contract_witness :
    str "backup" ≠ [] ∧
    ServeHTTP [postWatch, manualWatch, periodicWatch]
        { Method := str "POST", Path := 47 :: str "backup" } =
      (Response.redirect (str "/") 303, [manualWatch.chan]) :=
  ⟨by decide,
   ((dispatch_contract [postWatch, manualWatch, periodicWatch] (str "POST") (str "backup")
      (by decide)).2 manualWatch (by decide)).2.2.1 rfl (by decide)⟩

/-! ## The status snapshot -/

theorem saveStatus_snoc (actors : Nat → WatchDogStatus) (l : List Watch) (w : Watch) :
    saveStatus actors (l ++ [w]) =
      if w.Endpoint ≠ [] ∧ !IsZero (w.LastSeen actors) then
        fun e => if e = w.Endpoint then some (w.Status actors) else saveStatus actors l e
      else saveStatus actors l := by
  simp [saveStatus, List.foldl_append]

/-- The entry under `e` is the status of the last watch of the list stored under
`e`. -/
theorem saveStatus_eq_find (actors : Nat → WatchDogStatus) (statuses : List Watch)
    (e : GoString) :
    saveStatus actors statuses e =
      (statuses.reverse.find? (storedUnder actors e)).map (fun w => w.Status actors) := by
  induction statuses using List.reverseRecOn with
  | nil => rfl
  | append_singleton l w ih =>
    rw [saveStatus_snoc, List.reverse_append, List.reverse_singleton, List.singleton_append,
      List.find?_cons]
    by_cases hq : w.Endpoint ≠ [] ∧ (!IsZero (w.LastSeen actors)) = true
    · rw [if_pos hq]
      by_cases he : e = w.Endpoint
      · have : storedUnder actors e w = true := by
          simp only [storedUnder, he, decide_True, Bool.true_and, Bool.and_eq_true,
            decide_eq_true_eq]
          exact hq
        subst he
        simp [this]
      · have : storedUnder actors e w = false := by
          simp [storedUnder, Ne.symm he]
        simp [this, he, ih]
    · rw [if_neg hq]
      have : storedUnder actors e w = false := by
        by_cases he : w.Endpoint = e
        · rw [not_and_or] at hq
          rcases hq with hq | hq
          · simp [storedUnder, not_not.mp hq]
          · simp only [storedUnder, Bool.and_eq_false_iff]
            right; simpa using hq
        · simp [storedUnder, he]
      simp [this, ih]

/-- C8: the map built by `saveStatus` has the key `e` exactly when some watch of
the list has endpoint `e`, `e` is not empty and the `LastSeen` of that watch is
set; the value under `e` is the queried status of such a watch (the last one
in the list); the empty endpoint is never a key; and when the endpoints of the
list are pairwise distinct, every watch of it appears under its endpoint with
its own status if its endpoint is not empty and its `LastSeen` is set, and
does not appear otherwise. -/
theorem saveStatus_contents (actors : Nat → WatchDogStatus) (statuses : List Watch)
    (e : GoString) :
    ((saveStatus actors statuses e).isSome = true ↔
      ∃ w ∈ statuses, w.Endpoint = e ∧ e ≠ [] ∧ w.LastSeen actors ≠ 0) ∧
    (∀ v : WatchDogStatus, saveStatus actors statuses e = some v →
      ∃ w ∈ statuses, w.Endpoint = e ∧ e ≠ [] ∧ w.LastSeen actors ≠ 0 ∧
        v = w.Status actors) ∧
    saveStatus actors statuses e =
      (statuses.reverse.find? (storedUnder actors e)).map (fun w => w.Status actors) ∧
    saveStatus actors statuses [] = none ∧
    ((statuses.map (fun w => w.Endpoint)).Nodup → ∀ w ∈ statuses,
      saveStatus actors statuses w.Endpoint =
        if w.Endpoint ≠ [] ∧ w.LastSeen actors ≠ 0 then some (w.Status actors) else none) := by
  have hstored : ∀ (e : GoString) (w : Watch), storedUnder actors e w = true ↔
      (w.Endpoint = e ∧ e ≠ [] ∧ w.LastSeen actors ≠ 0) := by
    intro e w
    simp only [storedUnder, IsZero, Bool.and_eq_true, decide_eq_true_eq, Bool.not_eq_true',
      beq_eq_false_iff_ne, ne_eq]
    constructor
    · rintro ⟨⟨h1, h2⟩, h3⟩; exact ⟨h1, h1 ▸ h2, h3⟩
    · rintro ⟨h1, h2, h3⟩; exact ⟨⟨h1, h1 ▸ h2⟩, h3⟩
  refine ⟨?_, ?_, saveStatus_eq_find actors statuses e, ?_, ?_⟩
  · rw [saveStatus_eq_find, Option.isSome_map', List.find?_isSome]
    constructor
    · rintro ⟨w, hw, hq⟩
      exact ⟨w, List.mem_reverse.mp hw, (hstored e w).mp hq⟩
    · rintro ⟨w, hw, hq⟩
      exact ⟨w, List.mem_reverse.mpr hw, (hstored e w).mpr hq⟩
  · intro v hv
    rw [saveStatus_eq_find, Option.map_eq_some'] at hv
    obtain ⟨w, hw, rfl⟩ := hv
    have hmem := List.mem_reverse.mp (List.mem_of_find?_eq_some hw)
    obtain ⟨h1, h2, h3⟩ := (hstored e w).mp (List.find?_some hw)
    exact ⟨w, hmem, h1, h2, h3, rfl⟩
  · rw [saveStatus_eq_find, Option.map_eq_none', List.find?_eq_none]
    intro w _ hq
    exact ((hstored [] w).mp hq).2.1 rfl
  · intro hnd w hw
    rw [saveStatus_eq_find]
    by_cases hq : w.Endpoint ≠ [] ∧ w.LastSeen actors ≠ 0
    · rw [if_pos hq]
      have hsome : (statuses.reverse.find? (storedUnder actors w.Endpoint)).isSome = true := by
        rw [List.find?_isSome]
        exact ⟨w, List.mem_reverse.mpr hw, (hstored _ w).mpr ⟨rfl, hq.1, hq.2⟩⟩
      obtain ⟨x, hx⟩ := Option.isSome_iff_exists.mp hsome
      have hxmem := List.mem_reverse.mp (List.mem_of_find?_eq_some hx)
      have hxe : x.Endpoint = w.Endpoint := ((hstored _ x).mp (List.find?_some hx)).1
      have hxw : x = w := List.inj_on_of_nodup_map hnd hxmem hw hxe
      rw [hx, hxw]; rfl
    · rw [if_neg hq, Option.map_eq_none', List.find?_eq_none]
      intro x hx hqx
      have hxmem := List.mem_reverse.mp hx
      have hxe : x.Endpoint = w.Endpoint := ((hstored _ x).mp hqx).1
      have hxw : x = w := List.inj_on_of_nodup_map hnd hxmem hw hxe
      subst hxw
      exact hq ⟨((hstored _ x).mp hqx).2.1, ((hstored _ x).mp hqx).2.2⟩

/-- C8 at a registry of three watches of which only `backup` checked in. -/
theorem saveStatus_contents_witness :
    ([postWatch, manualWatch, periodicWatch].map (fun w => w.Endpoint)).Nodup ∧
    saveStatus sampleActors [postWatch, manualWatch, periodicWatch] manualWatch.Endpoint =
      (if manualWatch.Endpoint ≠ [] ∧ manualWatch.LastSeen sampleActors ≠ 0
        then some (manualWatch.Status sampleActors) else none) :=
  ⟨by decide,
   (saveStatus_contents sampleActors [postWatch, manualWatch, periodicWatch]
      (str "backup")).2.2.2.2 (by decide) manualWatch (by decide)⟩

/-! ## Trigger kinds in the configuration -/

theorem asciiLower_asciiUpper (c : Nat) (hc : ¬ (65 ≤ c ∧ c ≤ 90)) :
    asciiLower (asciiUpper c) = c := by
  unfold asciiLower asciiUpper
  split_ifs <;> omega

theorem asciiUpper_lt (c : Nat) (hc : c < 128) : asciiUpper c < 128 := by
  unfold asciiUpper
  split_ifs <;> omega

theorem asciiLower_lt (c : Nat) (hc : c < 128) : asciiLower c < 128 := by
  unfold asciiLower
  split_ifs <;> omega

/-- Every mixed-case spelling of an ASCII string without capitals is an ASCII
string whose lower case is that string. -/
theorem mixCase_lower (mask : List Bool) (t : GoString)
    (ht : ∀ c ∈ t, c < 128 ∧ ¬ (65 ≤ c ∧ c ≤ 90)) :
    (∀ c ∈ mixCase mask t, c < 128) ∧ (mixCase mask t).map asciiLower = t := by
  induction mask generalizing t with
  | nil =>
    have hmap : ∀ l : GoString, (∀ c ∈ l, c < 128 ∧ ¬ (65 ≤ c ∧ c ≤ 90)) →
        l.map asciiLower = l := by
      intro l hl
      induction l with
      | nil => rfl
      | cons c cs ih =>
        have h1 := (hl c (List.mem_cons_self _ _)).2
        have h2 := ih (fun x hx => hl x (List.mem_cons_of_mem _ hx))
        simp only [List.map_cons, h2, asciiLower, if_neg h1]
    cases t with
    | nil => simp [mixCase]
    | cons c cs => exact ⟨fun x hx => (ht x hx).1, hmap _ ht⟩
  | cons b bs ih =>
    cases t with
    | nil => simp [mixCase]
    | cons c cs =>
      obtain ⟨hc1, hc2⟩ := ht c (List.mem_cons_self _ _)
      obtain ⟨i1, i2⟩ := ih cs (fun x hx => ht x (List.mem_cons_of_mem _ hx))
      constructor
      · intro x hx
        simp only [mixCase, List.mem_cons] at hx
        rcases hx with hx | hx
        · rw [hx]; split
          · exact asciiUpper_lt c hc1
          · exact hc1
        · exact i1 x hx
      · simp only [mixCase, List.map_cons, i2]
        congr 1
        split
        · exact asciiLower_asciiUpper c hc2
        · simp only [asciiLower, if_neg hc2]

/-- Every string whose bytewise lower case is `t` is a mixed-case spelling of
`t`. -/
theorem mixCase_of_lower (data : GoString) :
    ∃ mask : List Bool, data = mixCase mask (data.map asciiLower) := by
  induction data with
  | nil => exact ⟨[], rfl⟩
  | cons d ds ih =>
    obtain ⟨mask, hmask⟩ := ih
    by_cases hd : 65 ≤ d ∧ d ≤ 90
    · refine ⟨true :: mask, ?_⟩
      simp only [List.map_cons, mixCase, if_true]
      rw [← hmask]
      congr 1
      unfold asciiLower asciiUpper
      split_ifs <;> omega
    · refine ⟨false :: mask, ?_⟩
      simp only [List.map_cons, mixCase]
      rw [← hmask]
      simp [asciiLower, hd]

theorem decodeRune_ascii (d : Nat) (ds : GoString) (hd : d < 128) :
    decodeRune (d :: ds) = (d, 1) := by
  simp [decodeRune, hd]

theorem decodeRune_dotted (ds : GoString) : decodeRune (0xC4 :: 0xB0 :: ds) = (0x130, 2) := by
  simp [decodeRune]

theorem decodeRune_kelvin (ds : GoString) :
    decodeRune (0xE2 :: 0x84 :: 0xAA :: ds) = (0x212A, 3) := by
  simp [decodeRune]

theorem decodeRune_two (d s1 : Nat) (rest : GoString) (h1 : 0xC2 ≤ d) (h2 : d < 0xE0) :
    decodeRune (d :: s1 :: rest) =
      if s1 < 0x80 ∨ 0xBF < s1 then (RuneError, 1) else (d % 32 * 64 + s1 % 64, 2) := by
  have a1 : ¬ d < 0x80 := by omega
  have a2 : ¬ (d < 0xC2 ∨ 0xF4 < d) := by omega
  have a3 : ¬ d = 0xE0 := by omega
  have a4 : ¬ d = 0xF0 := by omega
  have a5 : ¬ d = 0xED := by omega
  have a6 : ¬ d = 0xF4 := by omega
  simp [decodeRune, a1, a2, a3, a4, a5, a6, h2]

theorem decodeRune_three (d s1 s2 : Nat) (rest : GoString) (h1 : 0xE0 ≤ d) (h2 : d < 0xF0) :
    decodeRune (d :: s1 :: s2 :: rest) =
      if s1 < (if d = 0xE0 then 0xA0 else 0x80) ∨ (if d = 0xED then 0x9F else 0xBF) < s1 then
        (RuneError, 1)
      else if s2 < 0x80 ∨ 0xBF < s2 then (RuneError, 1)
      else (d % 16 * 4096 + s1 % 64 * 64 + s2 % 64, 3) := by
  have a1 : ¬ d < 0x80 := by omega
  have a2 : ¬ (d < 0xC2 ∨ 0xF4 < d) := by omega
  have a3 : ¬ d < 0xE0 := by omega
  have a4 : ¬ d = 0xF0 := by omega
  have a6 : ¬ d = 0xF4 := by omega
  simp [decodeRune, a1, a2, a3, a4, a6, h2]

theorem decodeRune_four (d s1 s2 s3 : Nat) (rest : GoString) (h1 : 0xF0 ≤ d) (h2 : d ≤ 0xF4) :
    decodeRune (d :: s1 :: s2 :: s3 :: rest) =
      if s1 < (if d = 0xF0 then 0x90 else 0x80) ∨ (if d = 0xF4 then 0x8F else 0xBF) < s1 then
        (RuneError, 1)
      else if s2 < 0x80 ∨ 0xBF < s2 then (RuneError, 1)
      else if s3 < 0x80 ∨ 0xBF < s3 then (RuneError, 1)
      else (d % 8 * 262144 + s1 % 64 * 4096 + s2 % 64 * 64 + s3 % 64, 4) := by
  have a1 : ¬ d < 0x80 := by omega
  have a2 : ¬ (d < 0xC2 ∨ 0xF4 < d) := by omega
  have a3 : ¬ d < 0xE0 := by omega
  have a4 : ¬ d < 0xF0 := by omega
  have a5 : ¬ d = 0xE0 := by omega
  have a6 : ¬ d = 0xED := by omega
  simp [decodeRune, a1, a2, a3, a4, a5, a6]

theorem decodeRune_short (d : Nat) (ds : GoString) (h1 : 0x80 ≤ d)
    (h : d < 0xC2 ∨ 0xF4 < d ∨ ds.length + 1 < (if d < 0xE0 then 2 else if d < 0xF0 then 3 else 4)) :
    decodeRune (d :: ds) = (RuneError, 1) := by
  have a1 : ¬ d < 0x80 := by omega
  by_cases a2 : d < 0xC2 ∨ 0xF4 < d
  · simp [decodeRune, a1, a2]
  · have h' : ds.length + 1 < (if d < 0xE0 then 2 else if d < 0xF0 then 3 else 4) := by
      rcases h with h | h | h
      · exact absurd (Or.inl h) a2
      · exact absurd (Or.inr h) a2
      · exact h
    simp only [decodeRune, a1, a2, if_false, h', if_true]

set_option maxHeartbeats 1000000 in
/-- A rune decoded at a byte outside ASCII is outside ASCII, its width is between
1 and the length of the string, and it is U+0130 or U+212A only at the valid
encoding of that rune. -/
theorem decodeRune_high (d : Nat) (ds : GoString) (hd : 128 ≤ d) :
    128 ≤ (decodeRune (d :: ds)).1 ∧ 1 ≤ (decodeRune (d :: ds)).2 ∧
      (decodeRune (d :: ds)).2 ≤ (d :: ds).length ∧
      ((decodeRune (d :: ds)).1 = 0x130 → d = 0xC4 ∧ ds.take 1 = [0xB0]) ∧
      ((decodeRune (d :: ds)).1 = 0x212A → d = 0xE2 ∧ ds.take 2 = [0x84, 0xAA]) := by
  by_cases hs : d < 0xC2 ∨ 0xF4 < d ∨
      ds.length + 1 < (if d < 0xE0 then 2 else if d < 0xF0 then 3 else 4)
  · rw [decodeRune_short d ds hd hs]
    simp [RuneError]
  · rw [not_or, not_or] at hs
    obtain ⟨h1, h2, h3⟩ := hs
    by_cases c2 : d < 0xE0
    · rw [if_pos c2] at h3
      rcases ds with _ | ⟨s1, rest⟩
      · simp at h3
      · rw [decodeRune_two d s1 rest (by omega) c2]
        split_ifs
        all_goals simp [RuneError]
        all_goals omega
    · by_cases c3 : d < 0xF0
      · rw [if_neg c2, if_pos c3] at h3
        rcases ds with _ | ⟨s1, _ | ⟨s2, rest⟩⟩
        · simp at h3
        · simp at h3
        · rw [decodeRune_three d s1 s2 rest (by omega) c3]
          split_ifs
          all_goals simp [RuneError]
          all_goals omega
      · rw [if_neg c2, if_neg c3] at h3
        rcases ds with _ | ⟨s1, _ | ⟨s2, _ | ⟨s3, rest⟩⟩⟩
        · simp at h3
        · simp at h3
        · simp at h3
        · rw [decodeRune_four d s1 s2 s3 rest (by omega) (by omega)]
          split_ifs
          all_goals simp [RuneError]
          all_goals omega

theorem encodeRune_ascii (r : Nat) (hr : r < 128) : encodeRune r = [r] := by
  have : r ≤ 0x7F := by omega
  simp [encodeRune, this]

theorem encodeRune_high (r : Nat) (hr : 128 ≤ r) :
    ∃ b bs, encodeRune r = b :: bs ∧ 128 ≤ b := by
  have : ¬ r ≤ 0x7F := by omega
  unfold encodeRune
  rw [if_neg this]
  split_ifs
  · exact ⟨_, _, rfl, by omega⟩
  · exact ⟨_, _, rfl, by omega⟩
  · exact ⟨_, _, rfl, by omega⟩
  · exact ⟨_, _, rfl, by omega⟩

theorem map_cons (mapping : Nat → Nat) (fuel : Nat) (d : Nat) (ds : GoString) :
    mapRunes mapping (fuel + 1) (d :: ds) =
      encodeRune (mapping (decodeRune (d :: ds)).1) ++
        mapRunes mapping fuel ((d :: ds).drop (decodeRune (d :: ds)).2) := rfl

theorem map_ascii_cons (caseTable : Nat → Nat) (fuel : Nat) (d : Nat) (ds : GoString)
    (hd : d < 128) :
    mapRunes (unicodeToLower caseTable) (fuel + 1) (d :: ds) =
      asciiLower d :: mapRunes (unicodeToLower caseTable) fuel ds := by
  have h1 : d ≤ 0x7F := by omega
  rw [map_cons, decodeRune_ascii d ds hd]
  simp only [unicodeToLower, if_pos h1, encodeRune_ascii _ (asciiLower_lt d hd)]
  rfl

theorem map_dotted_cons (caseTable : Nat → Nat) (fuel : Nat) (ds : GoString) :
    mapRunes (unicodeToLower caseTable) (fuel + 1) (0xC4 :: 0xB0 :: ds) =
      0x69 :: mapRunes (unicodeToLower caseTable) fuel ds := by
  rw [map_cons, decodeRune_dotted]
  simp [unicodeToLower, encodeRune]

theorem map_kelvin_cons (caseTable : Nat → Nat) (fuel : Nat) (ds : GoString) :
    mapRunes (unicodeToLower caseTable) (fuel + 1) (0xE2 :: 0x84 :: 0xAA :: ds) =
      0x6B :: mapRunes (unicodeToLower caseTable) fuel ds := by
  rw [map_cons, decodeRune_kelvin]
  simp [unicodeToLower, encodeRune]

/-- On a string of ASCII bytes `strings.Map` with `unicode.ToLower` is the
bytewise lower case. -/
theorem map_ascii (caseTable : Nat → Nat) (fuel : Nat) (s : GoString)
    (hs : ∀ c ∈ s, c < 128) (hf : s.length ≤ fuel) :
    mapRunes (unicodeToLower caseTable) fuel s = s.map asciiLower := by
  induction s generalizing fuel with
  | nil => cases fuel <;> rfl
  | cons d ds ih =>
    cases fuel with
    | zero => simp at hf
    | succ f =>
      rw [map_ascii_cons caseTable f d ds (hs d (List.mem_cons_self _ _)),
        ih f (fun c hc => hs c (List.mem_cons_of_mem _ hc))
          (by simpa using hf)]
      rfl

theorem toLower_eq_map (caseTable : Nat → Nat) (s : GoString) :
    ToLower caseTable s = Map (unicodeToLower caseTable) s := by
  unfold ToLower
  split
  · rename_i h
    rw [List.all_eq_true] at h
    exact (map_ascii caseTable s.length s (fun c hc => by simpa using h c hc) le_rfl).symm
  · rfl

theorem foldSpelling_cons (c d : Nat) (cs ds : GoString) :
    foldSpelling (c :: cs) (d :: ds) = true ↔
      (d < 128 ∧ asciiLower d = c ∧ foldSpelling cs ds = true) ∨
      (c = 0x69 ∧ d = 0xC4 ∧ ∃ ds1, ds = 0xB0 :: ds1 ∧ foldSpelling cs ds1 = true) ∨
      (c = 0x6B ∧ d = 0xE2 ∧ ∃ ds2, ds = 0x84 :: 0xAA :: ds2 ∧ foldSpelling cs ds2 = true) := by
  simp only [foldSpelling, Bool.or_eq_true, Bool.and_eq_true, decide_eq_true_eq, or_assoc,
    and_assoc]
  refine or_congr Iff.rfl (or_congr (and_congr Iff.rfl (and_congr Iff.rfl ?_))
    (and_congr Iff.rfl (and_congr Iff.rfl ?_)))
  · cases ds with
    | nil => simp
    | cons e ds1 =>
      simp only [List.cons.injEq, Bool.and_eq_true, decide_eq_true_eq]
      constructor
      · rintro ⟨h1, h2⟩; exact ⟨ds1, ⟨h1, rfl⟩, h2⟩
      · rintro ⟨_, ⟨h1, rfl⟩, h2⟩; exact ⟨h1, h2⟩
  · rcases ds with _ | ⟨e, _ | ⟨f, ds2⟩⟩
    · simp
    · simp
    · simp only [List.cons.injEq, Bool.and_eq_true, decide_eq_true_eq, and_assoc]
      constructor
      · rintro ⟨h1, h2, h3⟩; exact ⟨ds2, h1, h2, rfl, h3⟩
      · rintro ⟨_, h1, h2, rfl, h3⟩; exact ⟨h1, h2, h3⟩

/-- A string that spells `t` has lower case `t`. -/
theorem map_of_foldSpelling (caseTable : Nat → Nat) (t : GoString) (fuel : Nat)
    (data : GoString) (hf : data.length ≤ fuel) (hsp : foldSpelling t data = true) :
    mapRunes (unicodeToLower caseTable) fuel data = t := by
  induction t generalizing fuel data with
  | nil =>
    cases data with
    | nil => cases fuel <;> rfl
    | cons d ds => simp [foldSpelling] at hsp
  | cons c cs ih =>
    cases data with
    | nil => simp [foldSpelling] at hsp
    | cons d ds =>
      cases fuel with
      | zero => simp at hf
      | succ f =>
        have hf' : ds.length ≤ f := by simpa using hf
        rcases (foldSpelling_cons c d cs ds).mp hsp with
          ⟨h1, h2, h3⟩ | ⟨h1, h2, ds1, h3, h4⟩ | ⟨h1, h2, ds2, h3, h4⟩
        · rw [map_ascii_cons caseTable f d ds h1, h2, ih f ds hf' h3]
        · subst h1 h2 h3
          rw [map_dotted_cons, ih f ds1 (by simp at hf'; omega) h4]
        · subst h1 h2 h3
          rw [map_kelvin_cons, ih f ds2 (by simp at hf'; omega) h4]

/-- A string whose lower case is an ASCII string `t` spells `t`, when the rest
of the case table maps no rune outside ASCII into ASCII. -/
theorem foldSpelling_of_map (caseTable : Nat → Nat)
    (hT : ∀ r, 128 ≤ r → 128 ≤ caseTable r) (fuel : Nat) (data t : GoString)
    (hf : data.length ≤ fuel) (ht : ∀ c ∈ t, c < 128)
    (hm : mapRunes (unicodeToLower caseTable) fuel data = t) :
    foldSpelling t data = true := by
  induction fuel generalizing data t with
  | zero =>
    have : data = [] := List.length_eq_zero.mp (Nat.le_zero.mp hf)
    subst this
    rw [← hm]; rfl
  | succ f ih =>
    cases data with
    | nil => rw [← hm]; rfl
    | cons d ds =>
      by_cases hd : d < 128
      · rw [map_ascii_cons caseTable f d ds hd] at hm
        subst hm
        rw [foldSpelling_cons]
        exact Or.inl ⟨hd, rfl, ih ds _ (by simpa using hf)
          (fun c hc => ht c (List.mem_cons_of_mem _ hc)) rfl⟩
      · have hd' : 128 ≤ d := by omega
        obtain ⟨g1, g2, g3, g4, g5⟩ := decodeRune_high d ds hd'
        rw [map_cons] at hm
        by_cases e1 : (decodeRune (d :: ds)).1 = 0x130
        · obtain ⟨k1, k2⟩ := g4 e1
          rcases ds with _ | ⟨s1, ds1⟩
          · simp at k2
          · simp only [List.take_succ_cons, List.take_zero, List.cons.injEq, and_true] at k2
            subst k1 k2
            rw [← map_cons, map_dotted_cons] at hm
            subst hm
            rw [foldSpelling_cons]
            exact Or.inr (Or.inl ⟨rfl, rfl, ds1, rfl, ih ds1 _ (by simp at hf; omega)
              (fun c hc => ht c (List.mem_cons_of_mem _ hc)) rfl⟩)
        · by_cases e2 : (decodeRune (d :: ds)).1 = 0x212A
          · obtain ⟨k1, k2⟩ := g5 e2
            rcases ds with _ | ⟨s1, _ | ⟨s2, ds2⟩⟩
            · simp at k2
            · simp at k2
            · simp only [List.take_succ_cons, List.take_zero, List.cons.injEq, and_true] at k2
              obtain ⟨k2, k3⟩ := k2
              subst k1 k2 k3
              rw [← map_cons, map_kelvin_cons] at hm
              subst hm
              rw [foldSpelling_cons]
              exact Or.inr (Or.inr ⟨rfl, rfl, ds2, rfl, ih ds2 _ (by simp at hf; omega)
                (fun c hc => ht c (List.mem_cons_of_mem _ hc)) rfl⟩)
          · exfalso
            have h7 : ¬ (decodeRune (d :: ds)).1 ≤ 0x7F := by omega
            have hlow : unicodeToLower caseTable (decodeRune (d :: ds)).1 =
                caseTable (decodeRune (d :: ds)).1 := by
              simp only [unicodeToLower, if_neg h7, if_neg e1, if_neg e2]
            obtain ⟨b, bs, hb, hb128⟩ := encodeRune_high _ (hT _ g1)
            rw [hlow, hb] at hm
            have hmem : b ∈ t := by rw [← hm]; simp
            have := ht b hmem
            omega

theorem foldSpelling_ascii (data : GoString) (hs : ∀ d ∈ data, d < 128) :
    foldSpelling (data.map asciiLower) data = true := by
  induction data with
  | nil => rfl
  | cons d ds ih =>
    rw [List.map_cons, foldSpelling_cons]
    exact Or.inl ⟨hs d (List.mem_cons_self _ _), rfl,
      ih (fun c hc => hs c (List.mem_cons_of_mem _ hc))⟩

/-- A string that spells a string without `i` and `k` is an ASCII string with
that bytewise lower case. -/
theorem ascii_of_foldSpelling (t data : GoString) (ht : ∀ c ∈ t, c ≠ 0x69 ∧ c ≠ 0x6B)
    (hsp : foldSpelling t data = true) :
    (∀ d ∈ data, d < 128) ∧ data.map asciiLower = t := by
  induction t generalizing data with
  | nil =>
    cases data with
    | nil => simp
    | cons d ds => simp [foldSpelling] at hsp
  | cons c cs ih =>
    cases data with
    | nil => simp [foldSpelling] at hsp
    | cons d ds =>
      obtain ⟨hc1, hc2⟩ := ht c (List.mem_cons_self _ _)
      rcases (foldSpelling_cons c d cs ds).mp hsp with
        ⟨h1, h2, h3⟩ | ⟨h1, _⟩ | ⟨h1, _⟩
      · obtain ⟨i1, i2⟩ := ih ds (fun x hx => ht x (List.mem_cons_of_mem _ hx)) h3
        refine ⟨fun x hx => ?_, by rw [List.map_cons, h2, i2]⟩
        rcases List.mem_cons.mp hx with hx | hx
        · rw [hx]; exact h1
        · exact i1 x hx
      · exact absurd h1 hc1
      · exact absurd h1 hc2

/-- The spellings of a lower-case ASCII string without `i` and `k` are its
spellings in a mix of ASCII upper and lower case. -/
theorem foldSpelling_iff_mixCase (t data : GoString)
    (ht : ∀ c ∈ t, c < 128 ∧ ¬ (65 ≤ c ∧ c ≤ 90)) (hik : ∀ c ∈ t, c ≠ 0x69 ∧ c ≠ 0x6B) :
    foldSpelling t data = true ↔ ∃ mask : List Bool, data = mixCase mask t := by
  constructor
  · intro hsp
    obtain ⟨_, h2⟩ := ascii_of_foldSpelling t data hik hsp
    obtain ⟨mask, hmask⟩ := mixCase_of_lower data
    exact ⟨mask, h2 ▸ hmask⟩
  · rintro ⟨mask, rfl⟩
    obtain ⟨h1, h2⟩ := mixCase_lower mask t ht
    have := foldSpelling_ascii (mixCase mask t) h1
    rwa [h2] at this

theorem foldSpelling_mixCase (mask : List Bool) (t : GoString)
    (ht : ∀ c ∈ t, c < 128 ∧ ¬ (65 ≤ c ∧ c ≤ 90)) :
    foldSpelling t (mixCase mask t) = true := by
  obtain ⟨h1, h2⟩ := mixCase_lower mask t ht
  have := foldSpelling_ascii (mixCase mask t) h1
  rwa [h2] at this

theorem toLower_of_foldSpelling (caseTable : Nat → Nat) (t data : GoString)
    (hsp : foldSpelling t data = true) : ToLower caseTable data = t := by
  rw [toLower_eq_map]
  exact map_of_foldSpelling caseTable t data.length data le_rfl hsp

theorem foldSpelling_of_toLower (caseTable : Nat → Nat)
    (hT : ∀ r, 128 ≤ r → 128 ≤ caseTable r) (t data : GoString) (ht : ∀ c ∈ t, c < 128)
    (h : ToLower caseTable data = t) : foldSpelling t data = true := by
  rw [toLower_eq_map] at h
  exact foldSpelling_of_map caseTable hT data.length data t le_rfl ht h

theorem mixCase_length (mask : List Bool) (t : GoString) :
    (mixCase mask t).length = t.length := by
  induction mask generalizing t with
  | nil => cases t <;> rfl
  | cons b bs ih =>
    cases t with
    | nil => rfl
    | cons c cs => simp [mixCase, ih]

theorem unmarshal_value (caseTable : Nat → Nat) (data : GoString) :
    (UnmarshalJSON caseTable data).1 =
      (if ToLower caseTable data = str "\"post\"" then TriggerType.Post
       else if ToLower caseTable data = str "\"periodic\"" then TriggerType.Periodic
       else TriggerType.Manual) := by
  have hne : str "\"periodic\"" ≠ str "\"manual\"" := by decide
  simp only [UnmarshalJSON]
  split_ifs with h1 h2 h3 <;> first | rfl | exact absurd (h3.symm.trans h2) hne

/-- C10 as stated fails: on the bytes of `"perİodic"`, which spell none of the
three JSON strings in a mix of upper and lower case (the input has 11 bytes,
the two bytes `C4 B0` encoding U+0130), `UnmarshalJSON` sets the trigger to
Periodic, not to Manual, whatever the rest of the case table is. -/
theorem unmarshal_dotted_periodic :
    (∀ caseTable : Nat → Nat,
      (UnmarshalJSON caseTable dottedPeriodic).1 = TriggerType.Periodic) ∧
    (UnmarshalJSON id dottedPeriodic).1 ≠ TriggerType.Manual ∧
    (∀ mask : List Bool, dottedPeriodic ≠ mixCase mask (str "\"post\"")) ∧
    (∀ mask : List Bool, dottedPeriodic ≠ mixCase mask (str "\"manual\"")) ∧
    (∀ mask : List Bool, dottedPeriodic ≠ mixCase mask (str "\"periodic\"")) := by
  have hlen : ∀ (t : GoString) (mask : List Bool), t.length ≠ 11 →
      dottedPeriodic ≠ mixCase mask t := by
    intro t mask ht h
    apply ht
    rw [← mixCase_length mask t, ← h]
    rfl
  refine ⟨fun caseTable => ?_, by decide, fun mask => hlen _ mask (by decide),
    fun mask => hlen _ mask (by decide), fun mask => hlen _ mask (by decide)⟩
  rw [unmarshal_value,
    toLower_of_foldSpelling caseTable (str "\"periodic\"") dottedPeriodic (by decide)]
  decide

/-- C10 amended: `UnmarshalJSON` returns no error on any input.  It sets the
trigger to Post, Manual or Periodic on every input that spells the JSON string
`"post"`, `"manual"` or `"periodic"` in a mix of upper and lower case, where an
`i` may also be written as U+0130 (which `strings.ToLower` maps to `i`); for
`"post"` and `"manual"`, which have no `i`, these are exactly the spellings in
a mix of ASCII upper and lower case, and every such spelling of `"periodic"`
is one too.  On every other input it sets Manual, given that the rest of the
case table maps no rune outside ASCII into ASCII. -/
theorem unmarshal_trigger (caseTable : Nat → Nat) (data : GoString) :
    (UnmarshalJSON caseTable data).2 = none ∧
    (foldSpelling (str "\"post\"") data = true →
      (UnmarshalJSON caseTable data).1 = TriggerType.Post) ∧
    (foldSpelling (str "\"manual\"") data = true →
      (UnmarshalJSON caseTable data).1 = TriggerType.Manual) ∧
    (foldSpelling (str "\"periodic\"") data = true →
      (UnmarshalJSON caseTable data).1 = TriggerType.Periodic) ∧
    ((∀ r, 128 ≤ r → 128 ≤ caseTable r) →
      foldSpelling (str "\"post\"") data = false →
      foldSpelling (str "\"periodic\"") data = false →
      (UnmarshalJSON caseTable data).1 = TriggerType.Manual) ∧
    (foldSpelling (str "\"post\"") data = true ↔
      ∃ mask : List Bool, data = mixCase mask (str "\"post\"")) ∧
    (foldSpelling (str "\"manual\"") data = true ↔
      ∃ mask : List Bool, data = mixCase mask (str "\"manual\"")) ∧
    (∀ mask : List Bool,
      foldSpelling (str "\"periodic\"") (mixCase mask (str "\"periodic\"")) = true) := by
  refine ⟨rfl, fun h => ?_, fun h => ?_, fun h => ?_, fun hT h1 h2 => ?_,
    foldSpelling_iff_mixCase _ data (by decide) (by decide),
    foldSpelling_iff_mixCase _ data (by decide) (by decide),
    fun mask => foldSpelling_mixCase mask _ (by decide)⟩
  · rw [unmarshal_value, toLower_of_foldSpelling caseTable _ data h]; decide
  · rw [unmarshal_value, toLower_of_foldSpelling caseTable _ data h]; decide
  · rw [unmarshal_value, toLower_of_foldSpelling caseTable _ data h]; decide
  · rw [unmarshal_value]
    have n1 : ToLower caseTable data ≠ str "\"post\"" := fun e => by
      have := foldSpelling_of_toLower caseTable hT _ data (by decide) e
      rw [h1] at this; exact Bool.false_ne_true this
    have n2 : ToLower caseTable data ≠ str "\"periodic\"" := fun e => by
      have := foldSpelling_of_toLower caseTable hT _ data (by decide) e
      rw [h2] at this; exact Bool.false_ne_true this
    rw [if_neg n1, if_neg n2]

/-- C10 amended, at the inputs `"bogus"` and `"pOsT"`, with a case table that
leaves the other runes as they are. -/
theorem unmarshal_trigger_witness :
    (∀ r, 128 ≤ r → 128 ≤ id r) ∧
    (UnmarshalJSON id (str "\"bogus\"")).1 = TriggerType.Manual ∧
    (UnmarshalJSON id (str "\"pOsT\"")).1 = TriggerType.Post :=
  ⟨fun _ h => h,
   (unmarshal_trigger id (str "\"bogus\"")).2.2.2.2.1 (fun _ h => h) (by decide) (by decide),
   (unmarshal_trigger id (str "\"pOsT\"")).2.1 (by decide)⟩

/-! ## The stable sort -/

section Sorting

variable {α : Type} (less : α → α → Bool)

theorem insertBack_perm (x : α) (l : List α) : (insertBack less x l).Perm (x :: l) := by
  induction l with
  | nil => exact List.Perm.refl _
  | cons y rest ih =>
    unfold insertBack
    split
    · exact (List.Perm.cons y ih).trans (List.Perm.swap x y rest)
    · exact List.Perm.refl _

theorem foldl_insertBack_perm (l acc : List α) :
    (l.foldl (fun acc x => insertBack less x acc) acc).Perm (l ++ acc) := by
  induction l generalizing acc with
  | nil => exact List.Perm.refl _
  | cons x l ih =>
    rw [List.foldl_cons]
    refine (ih _).trans ?_
    refine (List.Perm.append_left l (insertBack_perm less x acc)).trans ?_
    exact List.perm_middle

theorem sortStable_perm (l : List α) : (sortStable less l).Perm l := by
  unfold sortStable
  refine (List.reverse_perm _).trans ?_
  simpa using foldl_insertBack_perm less l []

theorem insertBack_sorted (hasym : ∀ a b, less a b = true → less b a = false)
    (hneg : ∀ a b c, less a c = true → less a b = true ∨ less b c = true) (x : α)
    (l : List α) (hl : l.Pairwise (fun a b => less a b = false)) :
    (insertBack less x l).Pairwise (fun a b => less a b = false) := by
  induction l with
  | nil => simp [insertBack]
  | cons y rest ih =>
    rw [List.pairwise_cons] at hl
    unfold insertBack
    split
    · rename_i hxy
      rw [List.pairwise_cons]
      refine ⟨fun z hz => ?_, ih hl.2⟩
      rcases List.mem_cons.mp ((insertBack_perm less x rest).mem_iff.mp hz) with hz | hz
      · rw [hz]; exact hasym x y hxy
      · exact hl.1 z hz
    · rename_i hxy
      rw [List.pairwise_cons]
      refine ⟨fun z hz => ?_, List.pairwise_cons.mpr hl⟩
      rcases List.mem_cons.mp hz with hz | hz
      · rw [hz]; simpa using hxy
      · by_contra hxz
        rcases hneg x y z (by simpa using hxz) with h | h
        · exact hxy h
        · rw [hl.1 z hz] at h; exact Bool.false_ne_true h

theorem foldl_insertBack_sorted (hasym : ∀ a b, less a b = true → less b a = false)
    (hneg : ∀ a b c, less a c = true → less a b = true ∨ less b c = true)
    (l acc : List α) (hacc : acc.Pairwise (fun a b => less a b = false)) :
    (l.foldl (fun acc x => insertBack less x acc) acc).Pairwise
      (fun a b => less a b = false) := by
  induction l generalizing acc with
  | nil => exact hacc
  | cons x l ih =>
    rw [List.foldl_cons]
    exact ih _ (insertBack_sorted less hasym hneg x acc hacc)

/-- The result of the stable sort is ascending: no element is less than one
before it. -/
theorem sortStable_sorted (hasym : ∀ a b, less a b = true → less b a = false)
    (hneg : ∀ a b c, less a c = true → less a b = true ∨ less b c = true) (l : List α) :
    (sortStable less l).Pairwise (fun a b => less b a = false) := by
  unfold sortStable
  rw [List.pairwise_reverse]
  exact foldl_insertBack_sorted less hasym hneg l [] List.Pairwise.nil

theorem insertBack_filter (p : α → Bool)
    (hp : ∀ a b, p a = true → p b = true → less a b = false) (x : α) (l : List α) :
    (insertBack less x l).filter p = (x :: l).filter p := by
  induction l with
  | nil => rfl
  | cons y rest ih =>
    unfold insertBack
    split
    · rename_i hxy
      rw [List.filter_cons, ih]
      by_cases hx : p x = true
      · have hy : p y = false := by
          by_contra hy
          have := hp x y hx (by simpa using hy)
          rw [this] at hxy; exact Bool.false_ne_true hxy
        simp [List.filter_cons, hx, hy]
      · simp [List.filter_cons, hx]
    · rfl

theorem foldl_insertBack_filter (p : α → Bool)
    (hp : ∀ a b, p a = true → p b = true → less a b = false) (l acc : List α) :
    (l.foldl (fun acc x => insertBack less x acc) acc).filter p =
      (l.filter p).reverse ++ acc.filter p := by
  induction l generalizing acc with
  | nil => simp
  | cons x l ih =>
    rw [List.foldl_cons, ih, insertBack_filter less p hp]
    by_cases hx : p x = true
    · simp [List.filter_cons, hx]
    · simp [List.filter_cons, hx]

/-- The stable sort keeps the order of the elements of a class in which no
element is less than another. -/
theorem sortStable_filter (p : α → Bool)
    (hp : ∀ a b, p a = true → p b = true → less a b = false) (l : List α) :
    (sortStable less l).filter p = l.filter p := by
  unfold sortStable
  rw [List.filter_reverse, foldl_insertBack_filter less p hp]
  simp

/-- Two ascending lists that list every class of equivalent elements (neither
less than the other) in the same order are equal. -/
theorem sorted_stable_unique (hirr : ∀ a, less a a = false) (r₁ r₂ : List α)
    (h₁ : r₁.Pairwise (fun a b => less b a = false))
    (h₂ : r₂.Pairwise (fun a b => less b a = false))
    (hf : ∀ x, r₁.filter (fun y => !less x y && !less y x) =
      r₂.filter (fun y => !less x y && !less y x)) : r₁ = r₂ := by
  induction r₁ generalizing r₂ with
  | nil =>
    cases r₂ with
    | nil => rfl
    | cons b t₂ =>
      have := hf b
      simp [List.filter_cons, hirr] at this
  | cons a t₁ ih =>
    cases r₂ with
    | nil =>
      have := hf a
      simp [List.filter_cons, hirr] at this
    | cons b t₂ =>
      rw [List.pairwise_cons] at h₁ h₂
      have hab : a = b := by
        by_cases hequiv : (!less a b && !less b a) = true
        · have := hf a
          simp only [List.filter_cons, hirr, Bool.not_false, Bool.and_self, if_true,
            hequiv] at this
          exact (List.cons.inj this).1
        · exfalso
          have hne : a ≠ b := fun e => by
            subst e
            simp [hirr] at hequiv
          have hb : b ∈ a :: t₁ := by
            have hmem : b ∈ (b :: t₂).filter (fun y => !less b y && !less y b) := by
              simp [List.filter_cons, hirr]
            rw [← hf b] at hmem
            exact (List.mem_filter.mp hmem).1
          have ha : a ∈ b :: t₂ := by
            have hmem : a ∈ (a :: t₁).filter (fun y => !less a y && !less y a) := by
              simp [List.filter_cons, hirr]
            rw [hf a] at hmem
            exact (List.mem_filter.mp hmem).1
          have hb' : b ∈ t₁ := by
            rcases List.mem_cons.mp hb with e | e
            · exact absurd e.symm hne
            · exact e
          have ha' : a ∈ t₂ := by
            rcases List.mem_cons.mp ha with e | e
            · exact absurd e hne
            · exact e
          apply hequiv
          simp [h₁.1 b hb', h₂.1 a ha']
      subst hab
      congr 1
      refine ih t₂ h₁.2 h₂.2 (fun x => ?_)
      have := hf x
      by_cases hx : (!less x a && !less a x) = true
      · simp only [List.filter_cons, hx, if_true] at this
        exact (List.cons.inj this).2
      · simpa only [List.filter_cons, hx, if_false, Bool.false_eq_true] using this

/-- The contract of `sort.Stable` determines its result: every ascending list
that keeps the original order of equivalent elements is the one computed by
`sortStable`. -/
theorem sortStable_unique (hasym : ∀ a b, less a b = true → less b a = false)
    (hneg : ∀ a b c, less a c = true → less a b = true ∨ less b c = true) (l r : List α)
    (hsorted : r.Pairwise (fun a b => less b a = false))
    (hstable : ∀ x, r.filter (fun y => !less x y && !less y x) =
      l.filter (fun y => !less x y && !less y x)) : r = sortStable less l := by
  have hirr : ∀ a, less a a = false := by
    intro a
    by_contra h
    have h' : less a a = true := by simpa using h
    rw [hasym a a h'] at h'
    exact Bool.false_ne_true h'
  refine sorted_stable_unique less hirr r _ hsorted (sortStable_sorted less hasym hneg l)
    (fun x => ?_)
  rw [hstable, sortStable_filter less _ _ l]
  intro a b ha hb
  simp only [Bool.and_eq_true, Bool.not_eq_true'] at ha hb
  by_contra hab
  rcases hneg a x b (by simpa using hab) with h | h
  · rw [ha.2] at h; exact Bool.false_ne_true h
  · rw [hb.1] at h; exact Bool.false_ne_true h

end Sorting

/-! ## The registry order -/

theorem toInt_injective (a b : TriggerType) (h : a.toInt = b.toInt) : a = b := by
  cases a <;> cases b <;> first | rfl | exact absurd h (by decide)

theorem less_iff (w o : Watch) :
    w.Less o = true ↔
      (w.Trigger.toInt < o.Trigger.toInt ∨
        (w.Trigger = o.Trigger ∧ w.Endpoint < o.Endpoint)) := by
  unfold Watch.Less
  by_cases h : w.Trigger = o.Trigger
  · simp [h]
  · have : w.Trigger.toInt ≠ o.Trigger.toInt := fun e => h (toInt_injective _ _ e)
    simp [h]

theorem not_less_iff (w o : Watch) :
    o.Less w = false ↔
      (w.Trigger.toInt < o.Trigger.toInt ∨
        (w.Trigger = o.Trigger ∧ w.Endpoint ≤ o.Endpoint)) := by
  rw [← Bool.not_eq_true, less_iff]
  constructor
  · intro h
    rw [not_or, not_and] at h
    rcases lt_or_eq_of_le (not_lt.mp h.1) with hlt | heq
    · exact Or.inl hlt
    · have := toInt_injective _ _ heq
      exact Or.inr ⟨this, not_lt.mp (h.2 this.symm)⟩
  · rintro (h | ⟨h1, h2⟩) h'
    · rcases h' with h' | ⟨h', _⟩
      · exact lt_asymm h h'
      · rw [h'] at h; exact lt_irrefl _ h
    · rcases h' with h' | ⟨_, h'⟩
      · rw [h1] at h'; exact lt_irrefl _ h'
      · exact not_lt.mpr h2 h'

theorem less_asymm (a b : Watch) (h : a.Less b = true) : b.Less a = false := by
  rw [not_less_iff]
  rcases (less_iff a b).mp h with h | ⟨h1, h2⟩
  · exact Or.inl h
  · exact Or.inr ⟨h1, le_of_lt h2⟩

theorem less_negtrans (a b c : Watch) (h : a.Less c = true) :
    a.Less b = true ∨ b.Less c = true := by
  by_contra hcon
  rw [not_or, Bool.not_eq_true, Bool.not_eq_true, not_less_iff, not_less_iff] at hcon
  obtain ⟨hba, hcb⟩ := hcon
  rcases (less_iff a c).mp h with h | ⟨h1, h2⟩
  · rcases hba with hba | ⟨hba, _⟩ <;> rcases hcb with hcb | ⟨hcb, _⟩
    · exact lt_irrefl _ (h.trans (hcb.trans hba))
    · rw [hcb] at h; exact lt_asymm h hba
    · rw [← hba] at h; exact lt_asymm h hcb
    · rw [hcb, hba] at h; exact lt_irrefl _ h
  · rcases hba with hba | ⟨_, hba⟩ <;> rcases hcb with hcb | ⟨hcb', hcb⟩
    · rw [h1] at hba; exact lt_asymm hba hcb
    · rw [h1, hcb'] at hba; exact lt_irrefl _ hba
    · rename_i hba'; rw [← h1, ← hba'] at hcb; exact lt_irrefl _ hcb
    · exact lt_irrefl _ (lt_of_lt_of_le h2 (hcb.trans hba))

theorem hasKey_not_less (kind : TriggerType) (ep : GoString) (a b : Watch)
    (ha : hasKey kind ep a = true) (hb : hasKey kind ep b = true) : a.Less b = false := by
  simp only [hasKey, Bool.and_eq_true, decide_eq_true_eq] at ha hb
  rw [not_less_iff]
  exact Or.inr ⟨hb.1.trans ha.1.symm, le_of_eq (hb.2.trans ha.2.symm)⟩

theorem addAll_snoc (l : List Watch) (w : Watch) :
    addAll (l ++ [w]) = AddWatch (addAll l) w := by
  simp [addAll, List.foldl_append]

theorem addAll_perm (l : List Watch) : (addAll l).Perm l := by
  induction l using List.reverseRecOn with
  | nil => exact List.Perm.refl _
  | append_singleton l w ih =>
    rw [addAll_snoc]
    exact (sortStable_perm Watch.Less _).trans (List.Perm.append_right [w] ih)

theorem addAll_sorted (l : List Watch) :
    (addAll l).Pairwise (fun a b => b.Less a = false) := by
  induction l using List.reverseRecOn with
  | nil => exact List.Pairwise.nil
  | append_singleton l w _ =>
    rw [addAll_snoc]
    exact sortStable_sorted Watch.Less less_asymm less_negtrans _

theorem addAll_filter (kind : TriggerType) (ep : GoString) (l : List Watch) :
    (addAll l).filter (hasKey kind ep) = l.filter (hasKey kind ep) := by
  induction l using List.reverseRecOn with
  | nil => rfl
  | append_singleton l w ih =>
    rw [addAll_snoc]
    unfold AddWatch
    rw [sortStable_filter Watch.Less _ (hasKey_not_less kind ep), List.filter_append, ih,
      List.filter_append]

/-- C4: after any sequence of `AddWatch` calls on the empty registry, the registry
is a permutation of the inserted watches; for all positions `i < j` the watch
at `j` is not `Less` than the watch at `i`, that is, the kind at `i` comes
before the kind at `j` in the order Post, Manual, Periodic, or the kinds are
equal and the endpoint at `i` is at most the endpoint at `j`; the watches with
one (kind, endpoint) key are in their insertion order; and inserting watches of
kinds Periodic, Post, Manual, Post yields the two post watches (by endpoint, in
insertion order when the endpoints do not order them), then the manual and
then the periodic one. -/
theorem registry_sorted_stable (inserted : List Watch) :
    (addAll inserted).Perm inserted ∧
    (TriggerType.Post.toInt < TriggerType.Manual.toInt ∧
      TriggerType.Manual.toInt < TriggerType.Periodic.toInt) ∧
    (∀ (i j : Nat) (hi : i < (addAll inserted).length) (hj : j < (addAll inserted).length),
      i < j →
        (addAll inserted)[j].Less (addAll inserted)[i] = false ∧
        ((addAll inserted)[i].Trigger.toInt < (addAll inserted)[j].Trigger.toInt ∨
          ((addAll inserted)[i].Trigger = (addAll inserted)[j].Trigger ∧
            (addAll inserted)[i].Endpoint ≤ (addAll inserted)[j].Endpoint))) ∧
    (∀ (kind : TriggerType) (ep : GoString),
      (addAll inserted).filter (hasKey kind ep) = inserted.filter (hasKey kind ep)) ∧
    (∀ a b c d : Watch, a.Trigger = TriggerType.Periodic → b.Trigger = TriggerType.Post →
      c.Trigger = TriggerType.Manual → d.Trigger = TriggerType.Post →
        (addAll [a, b, c, d]).map (fun w => w.Trigger) =
          [TriggerType.Post, TriggerType.Post, TriggerType.Manual, TriggerType.Periodic] ∧
        addAll [a, b, c, d] =
          if d.Endpoint < b.Endpoint then [d, b, c, a] else [b, d, c, a]) := by
  refine ⟨addAll_perm inserted, by decide, ?_, fun kind ep => addAll_filter kind ep inserted, ?_⟩
  · intro i j hi hj hij
    have h := List.pairwise_iff_getElem.mp (addAll_sorted inserted) i j hi hj hij
    exact ⟨h, (not_less_iff _ _).mp h⟩
  · intro a b c d ha hb hc hd
    have key : addAll [a, b, c, d] =
        if d.Endpoint < b.Endpoint then [d, b, c, a] else [b, d, c, a] := by
      by_cases hlt : d.Endpoint < b.Endpoint <;>
        simp [addAll, AddWatch, sortStable, insertBack, Watch.Less, ha, hb, hc, hd,
          TriggerType.toInt, hlt]
    refine ⟨?_, key⟩
    rw [key]
    split <;> simp [ha, hb, hc, hd]

/-- C4 at the watches `cron` (periodic), `mail` (post), `backup` (manual) and a
second post watch `alpha`, inserted in this order. -/
theorem registry_sorted_stable_witness :
    periodicWatch.Trigger = TriggerType.Periodic ∧ postWatch.Trigger = TriggerType.Post ∧
    manualWatch.Trigger = TriggerType.Manual ∧
    (NewWatch (str "alpha") postWatch.toWatchDogConfig 3).Trigger = TriggerType.Post ∧
    addAll [periodicWatch, postWatch, manualWatch,
        NewWatch (str "alpha") postWatch.toWatchDogConfig 3] =
      [NewWatch (str "alpha") postWatch.toWatchDogConfig 3, postWatch, manualWatch,
        periodicWatch] :=
  ⟨by decide, by decide, by decide, by decide,
   ((registry_sorted_stable []).2.2.2.2 periodicWatch postWatch manualWatch
      (NewWatch (str "alpha") postWatch.toWatchDogConfig 3) (by decide) (by decide)
      (by decide) (by decide)).2.trans (by decide)⟩

end Woof
